import Mathlib

/-!
Verification of the shaper image-to-vector tracing pipeline
(src/lib/contour.ts and src/lib/bezier-fit.ts).

Conventions of the shallow embedding:
* JavaScript floating-point numbers are modelled as exact numbers: the
  contour module (Otsu, RDP, marching squares, hysteresis) only ever
  performs field operations and comparisons on its inputs, so it is
  embedded over the rationals and stays executable; the curve fitter
  takes square roots of its inputs (chord lengths, tangent
  normalization), so it is embedded over the reals.
* Where the source compares Euclidean distances (Math.hypot values), the
  rational embedding carries the squared distance and compares squares;
  square root is strictly monotone on nonnegatives, so every branch
  decision is identical.  Bridging lemmas relating the decidable
  comparisons to Real.sqrt comparisons are proved below.
* Loops are rendered as folds or as structurally recursive functions; a
  while-loop whose iteration count is bounded by the (finite) work left
  is rendered with an explicit fuel parameter instantiated with a bound
  that provably dominates the iteration count.
-/

open scoped List

namespace Shaper

/-! ### Otsu threshold (contour.ts, otsuThreshold) -/

/-- Luminance histogram: hist i is the number of gray entries equal to i
(the source fills a 256-slot array by hist[v]++). -/
def histOf (gray : List ℕ) (i : ℕ) : ℕ := gray.count i

/-- sumTotal of otsuThreshold: the loop for i in 0..255 accumulating
i * hist[i]. -/
def sumTotalOf (hist : ℕ → ℕ) : ℕ := ∑ i ∈ Finset.range 256, i * hist i

/-- The between-class variance computed in one scan step of
otsuThreshold from the state (wB, sumB): mB = sumB/wB,
mF = (sumTotal - sumB)/wF, variance = wB * wF * (mB - mF)^2. -/
def otsuVar (total sumTotal wB sumB : ℕ) : ℚ :=
  let mB : ℚ := (sumB : ℚ) / (wB : ℚ)
  let mF : ℚ := ((sumTotal : ℚ) - (sumB : ℚ)) / ((total : ℚ) - (wB : ℚ))
  (wB : ℚ) * ((total : ℚ) - (wB : ℚ)) * (mB - mF) ^ 2

/-- The threshold scan loop of otsuThreshold, one recursive step per
index i; the continue branch is the wB = 0 test, the break branch is the
wF = 0 test, and the running state is (wB, sumB, maxVar, threshold). -/
def otsuGo (hist : ℕ → ℕ) (total sumTotal : ℕ) :
    List ℕ → ℕ → ℕ → ℚ → ℕ → ℕ
  | [], _, _, _, thr => thr
  | i :: rest, wB, sumB, maxVar, thr =>
    let wB' := wB + hist i
    if wB' = 0 then otsuGo hist total sumTotal rest wB' sumB maxVar thr
    else if total = wB' then thr
    else
      let sumB' := sumB + i * hist i
      let varBetween : ℚ := otsuVar total sumTotal wB' sumB'
      if maxVar < varBetween then otsuGo hist total sumTotal rest wB' sumB' varBetween i
      else otsuGo hist total sumTotal rest wB' sumB' maxVar thr

/-- otsuThreshold (contour.ts lines 7-35). -/
def otsuThreshold (gray : List ℕ) : ℕ :=
  otsuGo (histOf gray) gray.length (sumTotalOf (histOf gray)) (List.range 256) 0 0 (-1) 128

/-- The scan only consults the histogram at the scanned indices. -/
theorem otsuGo_congr (h1 h2 : ℕ → ℕ) (total sumTotal : ℕ) (l : List ℕ)
    (hagree : ∀ i ∈ l, h1 i = h2 i) :
    ∀ wB sumB maxVar thr,
      otsuGo h1 total sumTotal l wB sumB maxVar thr =
      otsuGo h2 total sumTotal l wB sumB maxVar thr := by
  induction l with
  | nil => intro wB sumB maxVar thr; rfl
  | cons i rest ih =>
    intro wB sumB maxVar thr
    have hi : h1 i = h2 i := hagree i (List.mem_cons_self i rest)
    have hrest : ∀ j ∈ rest, h1 j = h2 j := fun j hj => hagree j (List.mem_cons_of_mem i hj)
    simp only [otsuGo, hi]
    split
    · exact ih hrest _ _ _ _
    · split
      · rfl
      · split
        · exact ih hrest _ _ _ _
        · exact ih hrest _ _ _ _

/-- A list of values below 256 has as many elements as its 256-bin
histogram has total mass. -/
theorem length_eq_hist_sum (g : List ℕ) (hv : ∀ v ∈ g, v < 256) :
    g.length = ∑ i ∈ Finset.range 256, histOf g i := by
  induction g with
  | nil => simp [histOf]
  | cons a t ih =>
    have ha : a < 256 := hv a (List.mem_cons_self a t)
    have ht : ∀ v ∈ t, v < 256 := fun v hvm => hv v (List.mem_cons_of_mem a hvm)
    have hcount : ∀ i, histOf (a :: t) i = histOf t i + if a = i then 1 else 0 := by
      intro i
      by_cases h : a = i
      · subst h; simp [histOf, List.count_cons]
      · simp [histOf, List.count_cons, h, Ne.symm h]
    calc (a :: t).length = t.length + 1 := by simp
    _ = (∑ i ∈ Finset.range 256, histOf t i) + 1 := by rw [ih ht]
    _ = ∑ i ∈ Finset.range 256, (histOf t i + if a = i then 1 else 0) := by
        rw [Finset.sum_add_distrib, Finset.sum_ite_eq (Finset.range 256) a (fun _ => 1),
          if_pos (Finset.mem_range.mpr ha)]
    _ = ∑ i ∈ Finset.range 256, histOf (a :: t) i := by
        exact Finset.sum_congr rfl (fun i _ => (hcount i).symm)

/-- Empty histogram bins before any mass is seen are skipped by the
continue branch. -/
theorem otsuGo_zeros_skip (hist : ℕ → ℕ) (total sumTotal : ℕ) (rest : List ℕ) :
    ∀ l : List ℕ, (∀ i ∈ l, hist i = 0) →
    ∀ sumB maxVar thr,
      otsuGo hist total sumTotal (l ++ rest) 0 sumB maxVar thr =
      otsuGo hist total sumTotal rest 0 sumB maxVar thr := by
  intro l
  induction l with
  | nil => intro _ sumB maxVar thr; rfl
  | cons i t ih =>
    intro hz sumB maxVar thr
    have hi : hist i = 0 := hz i (List.mem_cons_self i t)
    have ht : ∀ j ∈ t, hist j = 0 := fun j hj => hz j (List.mem_cons_of_mem i hj)
    simp only [List.cons_append, otsuGo, hi, Nat.add_zero, if_pos rfl]
    exact ih ht sumB maxVar thr

/-- Empty histogram bins strictly between the populated ones recompute the
same variance and change nothing. -/
theorem otsuGo_plateau (hist : ℕ → ℕ) (total sumTotal : ℕ) (rest : List ℕ) :
    ∀ l : List ℕ, (∀ i ∈ l, hist i = 0) →
    ∀ wB sumB maxVar thr, wB ≠ 0 → total ≠ wB →
      otsuVar total sumTotal wB sumB ≤ maxVar →
      otsuGo hist total sumTotal (l ++ rest) wB sumB maxVar thr =
      otsuGo hist total sumTotal rest wB sumB maxVar thr := by
  intro l
  induction l with
  | nil => intro _ wB sumB maxVar thr _ _ _; rfl
  | cons i t ih =>
    intro hz wB sumB maxVar thr hwB htot hle
    have hi : hist i = 0 := hz i (List.mem_cons_self i t)
    have ht : ∀ j ∈ t, hist j = 0 := fun j hj => hz j (List.mem_cons_of_mem i hj)
    have hle2 : ¬ (maxVar < otsuVar total sumTotal wB sumB) := not_lt.mpr hle
    simp only [List.cons_append, otsuGo, hi, Nat.add_zero, Nat.mul_zero,
      if_neg hwB, if_neg htot, if_neg hle2]
    exact ih ht wB sumB maxVar thr hwB htot hle

/-- A histogram with all mass at two values a < b. -/
def twoSpike (a b Na Nb : ℕ) : List ℕ := List.replicate Na a ++ List.replicate Nb b

theorem twoSpike_hist (a b Na Nb : ℕ) (hab : a ≠ b) (i : ℕ) :
    histOf (twoSpike a b Na Nb) i =
      (if a = i then Na else 0) + (if b = i then Nb else 0) := by
  simp only [histOf, twoSpike, List.count_append, List.count_replicate, beq_iff_eq]

theorem twoSpike_length (a b Na Nb : ℕ) :
    (twoSpike a b Na Nb).length = Na + Nb := by
  simp [twoSpike]

theorem twoSpike_sumTotal (a b Na Nb : ℕ) (hab : a ≠ b)
    (ha : a < 256) (hb : b < 256) :
    sumTotalOf (histOf (twoSpike a b Na Nb)) = a * Na + b * Nb := by
  unfold sumTotalOf
  rw [Finset.sum_congr rfl (fun i _ => by rw [twoSpike_hist a b Na Nb hab i])]
  have : ∀ i ∈ Finset.range 256,
      i * ((if a = i then Na else 0) + (if b = i then Nb else 0)) =
      (if a = i then a * Na else 0) + (if b = i then b * Nb else 0) := by
    intro i _
    by_cases h1 : a = i <;> by_cases h2 : b = i <;>
      simp [h1, h2, Nat.mul_add] <;> omega
  rw [Finset.sum_congr rfl this, Finset.sum_add_distrib,
    Finset.sum_ite_eq (Finset.range 256) a (fun _ => a * Na),
    Finset.sum_ite_eq (Finset.range 256) b (fun _ => b * Nb),
    if_pos (Finset.mem_range.mpr ha), if_pos (Finset.mem_range.mpr hb)]

/-- One scan step that updates the best threshold. -/
theorem otsuGo_step_update (hist : ℕ → ℕ) (total sumTotal i : ℕ) (rest : List ℕ)
    (wB sumB : ℕ) (maxVar : ℚ) (thr : ℕ)
    (h1 : wB + hist i ≠ 0) (h2 : total ≠ wB + hist i)
    (h3 : maxVar < otsuVar total sumTotal (wB + hist i) (sumB + i * hist i)) :
    otsuGo hist total sumTotal (i :: rest) wB sumB maxVar thr =
    otsuGo hist total sumTotal rest (wB + hist i) (sumB + i * hist i)
      (otsuVar total sumTotal (wB + hist i) (sumB + i * hist i)) i := by
  simp only [otsuGo, if_neg h1, if_neg h2, if_pos h3]

/-- One scan step hitting the wF = 0 break. -/
theorem otsuGo_step_break (hist : ℕ → ℕ) (total sumTotal i : ℕ) (rest : List ℕ)
    (wB sumB : ℕ) (maxVar : ℚ) (thr : ℕ)
    (h1 : wB + hist i ≠ 0) (h2 : total = wB + hist i) :
    otsuGo hist total sumTotal (i :: rest) wB sumB maxVar thr = thr := by
  simp only [otsuGo, if_neg h1, if_pos h2]

theorem otsuVar_nonneg (total sumTotal wB sumB : ℕ) (h : wB ≤ total) :
    0 ≤ otsuVar total sumTotal wB sumB := by
  show 0 ≤ (wB : ℚ) * ((total : ℚ) - (wB : ℚ)) * _
  apply mul_nonneg (mul_nonneg (by positivity) _) (sq_nonneg _)
  have hc : (wB : ℚ) ≤ (total : ℚ) := by exact_mod_cast h
  linarith

/-- On a two-spike histogram the Otsu scan returns exactly the lower
spike a: every threshold in [a, b) yields the same between-class
variance and the strict-improvement test keeps the first one. -/
theorem otsu_twoSpike (a b Na Nb : ℕ) (hab : a < b) (hb : b ≤ 255)
    (hNa : 0 < Na) (hNb : 0 < Nb) :
    otsuThreshold (twoSpike a b Na Nb) = a := by
  have habne : a ≠ b := Nat.ne_of_lt hab
  have hhist := twoSpike_hist a b Na Nb habne
  have hha : histOf (twoSpike a b Na Nb) a = Na := by
    rw [hhist]; simp [Ne.symm habne]
  have hhb : histOf (twoSpike a b Na Nb) b = Nb := by
    rw [hhist]; simp [habne]
  have hzlow : ∀ i ∈ List.range' 0 a, histOf (twoSpike a b Na Nb) i = 0 := by
    intro i hi
    rw [List.mem_range'_1] at hi
    rw [hhist]
    have h1 : a ≠ i := by omega
    have h2 : b ≠ i := by omega
    simp [h1, h2]
  have hzmid : ∀ i ∈ List.range' (a + 1) (b - a - 1), histOf (twoSpike a b Na Nb) i = 0 := by
    intro i hi
    rw [List.mem_range'_1] at hi
    rw [hhist]
    have h1 : a ≠ i := by omega
    have h2 : b ≠ i := by omega
    simp [h1, h2]
  -- decompose the index list 0..255 at a and at b
  have hsplit : List.range 256 =
      List.range' 0 a ++ (a :: (List.range' (a + 1) (b - a - 1) ++
        (b :: List.range' (b + 1) (255 - b)))) := by
    rw [List.range_eq_range']
    have h1 : List.range' 0 a ++ List.range' (0 + a) (256 - a) = List.range' 0 (256 - a + a) :=
      List.range'_append_1 0 a (256 - a)
    have e1 : (256 : ℕ) - a + a = 256 := by omega
    rw [e1] at h1
    rw [← h1]
    congr 1
    have e2 : (256 : ℕ) - a = (255 - a) + 1 := by omega
    rw [Nat.zero_add, e2, List.range'_succ]
    congr 1
    have h2 : List.range' (a + 1) (b - a - 1) ++ List.range' (a + 1 + (b - a - 1)) (256 - b) =
        List.range' (a + 1) (256 - b + (b - a - 1)) := List.range'_append_1 _ _ _
    have e3 : a + 1 + (b - a - 1) = b := by omega
    have e4 : (256 : ℕ) - b + (b - a - 1) = 255 - a := by omega
    rw [e3, e4] at h2
    rw [← h2]
    congr 1
    have e5 : (256 : ℕ) - b = (255 - b) + 1 := by omega
    rw [e5, List.range'_succ]
  unfold otsuThreshold
  rw [twoSpike_length, hsplit, otsuGo_zeros_skip _ _ _ _ _ hzlow]
  rw [otsuGo_step_update _ _ _ _ _ _ _ _ _ (by rw [hha]; omega) (by rw [hha]; omega)
    (by
      have h0 : (0 : ℚ) ≤ otsuVar (Na + Nb) (sumTotalOf (histOf (twoSpike a b Na Nb)))
          (0 + histOf (twoSpike a b Na Nb) a) (0 + a * histOf (twoSpike a b Na Nb) a) := by
        apply otsuVar_nonneg
        rw [hha]; omega
      linarith)]
  rw [otsuGo_plateau _ _ _ _ _ hzmid _ _ _ _ (by rw [hha]; omega) (by rw [hha]; omega) le_rfl]
  rw [otsuGo_step_break _ _ _ _ _ _ _ _ _ (by rw [hha, hhb]; omega) (by rw [hha, hhb]; omega)]

/-- otsuThreshold is a function of the 256-bin histogram alone. -/
theorem otsuThreshold_hist_determined (g1 g2 : List ℕ)
    (hv1 : ∀ v ∈ g1, v < 256) (hv2 : ∀ v ∈ g2, v < 256)
    (hh : ∀ i, i < 256 → histOf g1 i = histOf g2 i) :
    otsuThreshold g1 = otsuThreshold g2 := by
  have hlen : g1.length = g2.length := by
    rw [length_eq_hist_sum g1 hv1, length_eq_hist_sum g2 hv2]
    exact Finset.sum_congr rfl (fun i hi => hh i (Finset.mem_range.mp hi))
  have hsum : sumTotalOf (histOf g1) = sumTotalOf (histOf g2) := by
    unfold sumTotalOf
    exact Finset.sum_congr rfl (fun i hi => by rw [hh i (Finset.mem_range.mp hi)])
  unfold otsuThreshold
  rw [hlen, hsum]
  exact otsuGo_congr (histOf g1) (histOf g2) _ _ _
    (fun i hi => hh i (by simpa using List.mem_range.mp hi)) 0 0 (-1) 128

/-- C5, counterexample to the claim as stated: for the bimodal histogram
with well-separated spikes at 50 and 200 (four pixels each), the Otsu
scan returns exactly 50, the lower peak itself — not a value strictly
between the peaks (the variance is constant on [50, 200) and the strict
improvement test keeps the first maximizer). -/
theorem C5_cex_otsu_not_strictly_between :
    otsuThreshold (twoSpike 50 200 4 4) = 50 ∧
    ¬ (50 < otsuThreshold (twoSpike 50 200 4 4) ∧
        otsuThreshold (twoSpike 50 200 4 4) < 200) := by
  have h := otsu_twoSpike 50 200 4 4 (by norm_num) (by norm_num) (by norm_num) (by norm_num)
  exact ⟨h, by rw [h]; omega⟩

/-- C5, amended: otsuThreshold is deterministic — it depends only on the
luminance histogram — and for a bimodal histogram with spikes at a < b
the returned threshold lies in the half-open interval [a, b) (it equals
a, so it is not in general strictly above a). -/
theorem C5_otsu_deterministic_and_bimodal :
    (∀ g1 g2 : List ℕ, (∀ v ∈ g1, v < 256) → (∀ v ∈ g2, v < 256) →
      (∀ i, i < 256 → histOf g1 i = histOf g2 i) →
      otsuThreshold g1 = otsuThreshold g2) ∧
    (∀ a b Na Nb : ℕ, a < b → b ≤ 255 → 0 < Na → 0 < Nb →
      a ≤ otsuThreshold (twoSpike a b Na Nb) ∧
        otsuThreshold (twoSpike a b Na Nb) < b) := by
  constructor
  · exact otsuThreshold_hist_determined
  · intro a b Na Nb hab hb hNa hNb
    rw [otsu_twoSpike a b Na Nb hab hb hNa hNb]
    omega

/-- C5 witness: the amended theorem applied at concrete inputs. -/
theorem C5_witness :
    otsuThreshold [7] = otsuThreshold [7] ∧
    (50 ≤ otsuThreshold (twoSpike 50 200 4 4) ∧
      otsuThreshold (twoSpike 50 200 4 4) < 200) := by
  refine ⟨?_, ?_⟩
  · exact C5_otsu_deterministic_and_bimodal.1 [7] [7]
      (by norm_num) (by norm_num) (fun i _ => rfl)
  · exact C5_otsu_deterministic_and_bimodal.2 50 200 4 4
      (by norm_num) (by norm_num) (by norm_num) (by norm_num)

/-! ### RDP simplification (contour.ts, rdp) -/

/-- A point, as the pair of its coordinates. -/
abbrev Pt := ℚ × ℚ

/-- Squared distance from pt to the segment [s, e], projection parameter
clamped to [0, 1] (distPointLine in the source returns the square root of
this value via Math.hypot; it is only ever compared, so the square is
carried instead — square root is strictly monotone on nonnegatives). -/
def distPointSeg2 (pt s e : Pt) : ℚ :=
  let dx := e.1 - s.1
  let dy := e.2 - s.2
  if dx = 0 ∧ dy = 0 then (pt.1 - s.1) ^ 2 + (pt.2 - s.2) ^ 2
  else
    let t0 := ((pt.1 - s.1) * dx + (pt.2 - s.2) * dy) / (dx * dx + dy * dy)
    let t := max 0 (min 1 t0)
    (pt.1 - (s.1 + t * dx)) ^ 2 + (pt.2 - (s.2 + t * dy)) ^ 2

theorem distPointSeg2_nonneg (pt s e : Pt) : 0 ≤ distPointSeg2 pt s e := by
  unfold distPointSeg2
  dsimp only
  split <;> positivity

/-- The max-distance scan of rdp: walk the interior points (indices
1 .. n-2) carrying the running squared maximum and its index; the
strict comparison keeps the first maximizer. -/
def scanGo (s e : Pt) : List Pt → ℕ → ℚ × ℕ → ℚ × ℕ
  | [], _, st => st
  | p :: rest, i, st =>
    let d2 := distPointSeg2 p s e
    if st.1 < d2 then scanGo s e rest (i + 1) (d2, i) else scanGo s e rest (i + 1) st

/-- The (squared) maxDist and index found by the scan loop of rdp. -/
def maxDistScan (pts : List Pt) : ℚ × ℕ :=
  scanGo pts.head! pts.getLast! ((pts.drop 1).dropLast) 1 (0, 0)

/-- Decidable rendering of: the Euclidean distance √d2 exceeds eps
(the source computes maxDist > epsilon on the square roots). -/
def sqrtGtB (d2 eps : ℚ) : Bool := decide (eps < 0) || decide (eps ^ 2 < d2)

/-- The Boolean sqrtGtB is exactly the source's comparison of the
Euclidean distance against epsilon. -/
theorem sqrtGtB_iff (d2 eps : ℚ) (h : 0 ≤ d2) :
    sqrtGtB d2 eps = true ↔ (eps : ℝ) < Real.sqrt (d2 : ℝ) := by
  unfold sqrtGtB
  rw [Bool.or_eq_true, decide_eq_true_iff, decide_eq_true_iff]
  constructor
  · rintro (hneg | hlt)
    · exact lt_of_lt_of_le (by exact_mod_cast hneg) (Real.sqrt_nonneg _)
    · rcases lt_or_le eps 0 with hneg | hpos
      · exact lt_of_lt_of_le (by exact_mod_cast hneg) (Real.sqrt_nonneg _)
      · rw [Real.lt_sqrt (by exact_mod_cast hpos)]
        exact_mod_cast hlt
  · intro hlt
    rcases lt_or_le eps 0 with hneg | hpos
    · exact Or.inl hneg
    · right
      rw [Real.lt_sqrt (by exact_mod_cast hpos)] at hlt
      exact_mod_cast hlt

/-- rdpAux fuel pts eps: rdp with a structural bound on the recursion
depth; rdp instantiates fuel = pts.length, which always suffices
(rdpAux_congr below).  The inner index guard is the one situation in
which the source recursion does not terminate (index 0 with
maxDist > epsilon requires epsilon < 0 and a zero maximum, and then
rdp(points.slice(0)) recurses on the whole input forever); that branch is
rendered by the endpoint collapse and is unreachable for eps ≥ 0. -/
def rdpAux : ℕ → List Pt → ℚ → List Pt
  | 0, pts, _ => pts
  | fuel + 1, pts, eps =>
    if pts.length < 3 then pts
    else
      let sc := maxDistScan pts
      if sqrtGtB sc.1 eps then
        if 1 ≤ sc.2 then
          (rdpAux fuel (pts.take (sc.2 + 1)) eps).dropLast ++ rdpAux fuel (pts.drop sc.2) eps
        else [pts.head!, pts.getLast!]
      else [pts.head!, pts.getLast!]

/-- rdp (contour.ts lines 193-225, identically lines 627-659 of the
unnamed module). -/
def rdp (pts : List Pt) (eps : ℚ) : List Pt := rdpAux pts.length pts eps

/-! Scan loop lemmas. -/

theorem scanGo_append (s e : Pt) (l1 l2 : List Pt) :
    ∀ (i : ℕ) (st : ℚ × ℕ),
      scanGo s e (l1 ++ l2) i st = scanGo s e l2 (i + l1.length) (scanGo s e l1 i st) := by
  induction l1 with
  | nil => intro i st; simp [scanGo]
  | cons p rest ih =>
    intro i st
    simp only [List.cons_append, scanGo, List.append_eq]
    split <;> rw [ih] <;> congr 1 <;> simp <;> omega

theorem scanGo_no_update (s e : Pt) :
    ∀ (l : List Pt) (i : ℕ) (st : ℚ × ℕ),
      (∀ x ∈ l, distPointSeg2 x s e ≤ st.1) → scanGo s e l i st = st := by
  intro l
  induction l with
  | nil => intro i st _; rfl
  | cons p rest ih =>
    intro i st hb
    have hp : distPointSeg2 p s e ≤ st.1 := hb p (List.mem_cons_self p rest)
    simp only [scanGo, if_neg (not_lt.mpr hp)]
    exact ih _ _ (fun x hx => hb x (List.mem_cons_of_mem p hx))

theorem scanGo_max_lt (s e : Pt) (M : ℚ) :
    ∀ (l : List Pt) (i : ℕ) (st : ℚ × ℕ),
      (∀ x ∈ l, distPointSeg2 x s e < M) → st.1 < M → (scanGo s e l i st).1 < M := by
  intro l
  induction l with
  | nil => intro i st _ h; exact h
  | cons p rest ih =>
    intro i st hb hst
    have hp : distPointSeg2 p s e < M := hb p (List.mem_cons_self p rest)
    have hrest : ∀ x ∈ rest, distPointSeg2 x s e < M :=
      fun x hx => hb x (List.mem_cons_of_mem p hx)
    simp only [scanGo]
    split
    · exact ih _ _ hrest hp
    · exact ih _ _ hrest hst

/-- Full characterization of the scan: either nothing beat the incoming
state, or the result is the first maximizer. -/
theorem scanGo_spec (s e : Pt) :
    ∀ (l : List Pt) (i : ℕ) (st : ℚ × ℕ),
      (scanGo s e l i st = st ∧ ∀ x ∈ l, distPointSeg2 x s e ≤ st.1) ∨
      (∃ pre pm post, l = pre ++ pm :: post ∧
        scanGo s e l i st = (distPointSeg2 pm s e, i + pre.length) ∧
        st.1 < distPointSeg2 pm s e ∧
        (∀ x ∈ pre, distPointSeg2 x s e < distPointSeg2 pm s e) ∧
        (∀ x ∈ post, distPointSeg2 x s e ≤ distPointSeg2 pm s e)) := by
  intro l
  induction l with
  | nil => intro i st; exact Or.inl ⟨rfl, by simp⟩
  | cons p rest ih =>
    intro i st
    by_cases hup : st.1 < distPointSeg2 p s e
    · have hstep : scanGo s e (p :: rest) i st =
          scanGo s e rest (i + 1) (distPointSeg2 p s e, i) := by
        simp only [scanGo, if_pos hup]
      rcases ih (i + 1) (distPointSeg2 p s e, i) with ⟨heq, hall⟩ | ⟨pre, pm, post, hl, heq, hlt, hpre, hpost⟩
      · refine Or.inr ⟨[], p, rest, by simp, ?_, hup, by simp, hall⟩
        rw [hstep, heq]
        simp only [List.length_nil, Nat.add_zero]
      · refine Or.inr ⟨p :: pre, pm, post, by simp [hl], ?_, lt_trans hup hlt, ?_, hpost⟩
        · rw [hstep, heq]
          simp only [Prod.mk.injEq, List.length_cons]
          exact ⟨trivial, by omega⟩
        · intro x hx
          rcases List.mem_cons.mp hx with hx | hx
          · subst hx; exact hlt
          · exact hpre x hx
    · have hstep : scanGo s e (p :: rest) i st = scanGo s e rest (i + 1) st := by
        simp only [scanGo, if_neg hup]
      rcases ih (i + 1) st with ⟨heq, hall⟩ | ⟨pre, pm, post, hl, heq, hlt, hpre, hpost⟩
      · refine Or.inl ⟨by rw [hstep, heq], ?_⟩
        intro x hx
        rcases List.mem_cons.mp hx with hx | hx
        · subst hx; exact not_lt.mp hup
        · exact hall x hx
      · refine Or.inr ⟨p :: pre, pm, post, by simp [hl], ?_, hlt, ?_, hpost⟩
        · rw [hstep, heq]
          simp only [Prod.mk.injEq, List.length_cons]
          exact ⟨trivial, by omega⟩
        · intro x hx
          rcases List.mem_cons.mp hx with hx | hx
          · subst hx; exact lt_of_le_of_lt (not_lt.mp hup) hlt
          · exact hpre x hx

/-- Every scanned element is bounded by the final running maximum. -/
theorem scanGo_bounds (s e : Pt) :
    ∀ (l : List Pt) (i : ℕ) (st : ℚ × ℕ),
      ∀ x ∈ l, distPointSeg2 x s e ≤ (scanGo s e l i st).1 := by
  intro l i st x hx
  rcases scanGo_spec s e l i st with ⟨heq, hall⟩ | ⟨pre, pm, post, hl, heq, hlt, hpre, hpost⟩
  · rw [heq]; exact hall x hx
  · rw [heq]
    subst hl
    rcases List.mem_append.mp hx with hx | hx
    · exact le_of_lt (hpre x hx)
    · rcases List.mem_cons.mp hx with hx | hx
      · subst hx; rfl
      · exact hpost x hx

/-! List bookkeeping helpers for rdp. -/

theorem getLast!_concat {A : Type} [Inhabited A] (l : List A) (x : A) : (l ++ [x]).getLast! = x :=
  List.getLast!_of_getLast? (List.getLast?_concat l)

theorem head!_cons {A : Type} [Inhabited A] (a : A) (l : List A) : (a :: l).head! = a := rfl

theorem getLast!_cons_cons {A : Type} [Inhabited A] (a b : A) (l : List A) :
    (a :: b :: l).getLast! = (b :: l).getLast! := by
  simp [List.getLast!_cons, List.getLastD_cons, List.getLast?_cons]

theorem getLast!_eq_getLast {A : Type} [Inhabited A] (l : List A) (h : l ≠ []) : l.getLast! = l.getLast h :=
  List.getLast!_of_getLast? (List.getLast?_eq_getLast l h)

theorem dropLast_concat_getLast! {A : Type} [Inhabited A] (l : List A) (h : l ≠ []) :
    l.dropLast ++ [l.getLast!] = l := by
  rw [getLast!_eq_getLast l h]
  exact List.dropLast_concat_getLast h

/-- Any list of length ≥ 2 is head, interior, last. -/
theorem list_shape {A : Type} [Inhabited A] (pts : List A) (h2 : 2 ≤ pts.length) :
    pts = pts.head! :: (((pts.drop 1).dropLast) ++ [pts.getLast!]) := by
  cases pts with
  | nil => simp at h2
  | cons a t =>
    have ht : t ≠ [] := by
      cases t with
      | nil => simp at h2
      | cons b l => simp
    have hlast : (a :: t).getLast! = t.getLast! := by
      cases t with
      | nil => exact absurd rfl ht
      | cons b l => simp [List.getLast!_cons, List.getLastD_cons, List.getLast?_cons]
    rw [head!_cons, hlast]
    show a :: t = a :: (t.dropLast ++ [t.getLast!])
    rw [dropLast_concat_getLast! t ht]

/-- The interior of a polyline has length n - 2. -/
theorem interior_length (pts : List Pt) :
    ((pts.drop 1).dropLast).length = pts.length - 1 - 1 := by
  simp [List.length_dropLast, List.length_drop]

/-- Either no interior point has positive distance (index stays 0), or
the scan finds the first maximizer at a valid interior index. -/
theorem maxDistScan_cases (pts : List Pt) :
    ((maxDistScan pts).1 = 0 ∧ (maxDistScan pts).2 = 0 ∧
      ∀ x ∈ (pts.drop 1).dropLast, distPointSeg2 x pts.head! pts.getLast! ≤ 0) ∨
    (∃ pre pm post, (pts.drop 1).dropLast = pre ++ pm :: post ∧
      maxDistScan pts = (distPointSeg2 pm pts.head! pts.getLast!, 1 + pre.length) ∧
      0 < distPointSeg2 pm pts.head! pts.getLast! ∧
      (∀ x ∈ pre, distPointSeg2 x pts.head! pts.getLast! <
        distPointSeg2 pm pts.head! pts.getLast!) ∧
      (∀ x ∈ post, distPointSeg2 x pts.head! pts.getLast! ≤
        distPointSeg2 pm pts.head! pts.getLast!)) := by
  unfold maxDistScan
  rcases scanGo_spec pts.head! pts.getLast! ((pts.drop 1).dropLast) 1 (0, 0) with
    ⟨heq, hall⟩ | ⟨pre, pm, post, hl, heq, hlt, hpre, hpost⟩
  · left
    rw [heq]
    exact ⟨rfl, rfl, hall⟩
  · right
    exact ⟨pre, pm, post, hl, heq, hlt, hpre, hpost⟩

/-- Every interior point is bounded by the scanned squared maximum. -/
theorem maxDistScan_bounds (pts : List Pt) :
    ∀ x ∈ (pts.drop 1).dropLast,
      distPointSeg2 x pts.head! pts.getLast! ≤ (maxDistScan pts).1 := by
  unfold maxDistScan
  exact scanGo_bounds pts.head! pts.getLast! _ 1 (0, 0)

/-- The scanned index is 0 or a genuine interior index. -/
theorem maxDistScan_idx (pts : List Pt) :
    (maxDistScan pts).2 = 0 ∨
      (1 ≤ (maxDistScan pts).2 ∧ (maxDistScan pts).2 + 2 ≤ pts.length) := by
  rcases maxDistScan_cases pts with ⟨_, h0, _⟩ | ⟨pre, pm, post, hl, heq, _, _, _⟩
  · exact Or.inl h0
  · right
    have hlen := interior_length pts
    rw [hl] at hlen
    simp only [List.length_append, List.length_cons] at hlen
    rw [heq]
    constructor
    · omega
    · omega

/-- The fuel of rdpAux is irrelevant as soon as it dominates the input
length: with fuel = length, rdpAux is the source recursion itself. -/
theorem rdpAux_congr : ∀ (k : ℕ) (pts : List Pt) (eps : ℚ) (n m : ℕ),
    pts.length ≤ k → pts.length ≤ n → pts.length ≤ m →
    rdpAux n pts eps = rdpAux m pts eps := by
  intro k
  induction k with
  | zero =>
    intro pts eps n m hk _ _
    have hnil : pts = [] := List.length_eq_zero.mp (Nat.le_zero.mp hk)
    subst hnil
    cases n <;> cases m <;> simp [rdpAux]
  | succ k ih =>
    intro pts eps n m hk hn hm
    cases n with
    | zero =>
      have hnil : pts = [] := List.length_eq_zero.mp (Nat.le_zero.mp hn)
      subst hnil
      cases m <;> simp [rdpAux]
    | succ n' =>
      cases m with
      | zero =>
        have hnil : pts = [] := List.length_eq_zero.mp (Nat.le_zero.mp hm)
        subst hnil
        simp [rdpAux]
      | succ m' =>
        simp only [rdpAux]
        by_cases h3 : pts.length < 3
        · rw [if_pos h3, if_pos h3]
        · rw [if_neg h3, if_neg h3]
          by_cases hgt : sqrtGtB (maxDistScan pts).1 eps
          · rw [if_pos hgt, if_pos hgt]
            by_cases hguard : 1 ≤ (maxDistScan pts).2
            · rw [if_pos hguard, if_pos hguard]
              rcases maxDistScan_idx pts with h0 | ⟨_, hub⟩
              · omega
              · have htake : (pts.take ((maxDistScan pts).2 + 1)).length =
                    (maxDistScan pts).2 + 1 := by
                  rw [List.length_take]
                  omega
                have hdrop : (pts.drop (maxDistScan pts).2).length =
                    pts.length - (maxDistScan pts).2 := by
                  rw [List.length_drop]
                rw [ih (pts.take ((maxDistScan pts).2 + 1)) eps n' m'
                    (by omega) (by omega) (by omega),
                  ih (pts.drop (maxDistScan pts).2) eps n' m'
                    (by omega) (by omega) (by omega)]
            · rw [if_neg hguard, if_neg hguard]
          · rw [if_neg hgt, if_neg hgt]

/-- The defining recursion of rdp, fuel-free: the source's rdp equation
(split at the first maximizer when maxDist > epsilon, collapse to the
endpoints otherwise). -/
theorem rdp_eq (pts : List Pt) (eps : ℚ) :
    rdp pts eps =
      if pts.length < 3 then pts
      else
        if sqrtGtB (maxDistScan pts).1 eps then
          if 1 ≤ (maxDistScan pts).2 then
            (rdp (pts.take ((maxDistScan pts).2 + 1)) eps).dropLast ++
              rdp (pts.drop (maxDistScan pts).2) eps
          else [pts.head!, pts.getLast!]
        else [pts.head!, pts.getLast!] := by
  unfold rdp
  by_cases h3 : pts.length < 3
  · rw [if_pos h3]
    cases hn : pts.length with
    | zero =>
      have hnil : pts = [] := List.length_eq_zero.mp hn
      subst hnil
      simp [rdpAux]
    | succ n' =>
      simp only [rdpAux]
      rw [if_pos h3]
  · rw [if_neg h3]
    cases hn : pts.length with
    | zero => omega
    | succ n' =>
      simp only [rdpAux]
      rw [if_neg h3]
      by_cases hgt : sqrtGtB (maxDistScan pts).1 eps
      · rw [if_pos hgt, if_pos hgt]
        by_cases hguard : 1 ≤ (maxDistScan pts).2
        · rw [if_pos hguard, if_pos hguard]
          rcases maxDistScan_idx pts with h0 | ⟨_, hub⟩
          · omega
          · have htake : (pts.take ((maxDistScan pts).2 + 1)).length =
                (maxDistScan pts).2 + 1 := by
              rw [List.length_take]
              omega
            have hdrop : (pts.drop (maxDistScan pts).2).length =
                pts.length - (maxDistScan pts).2 := List.length_drop _ _
            rw [rdpAux_congr (pts.take ((maxDistScan pts).2 + 1)).length
                (pts.take ((maxDistScan pts).2 + 1)) eps n' _
                le_rfl (by omega) le_rfl,
              rdpAux_congr (pts.drop (maxDistScan pts).2).length
                (pts.drop (maxDistScan pts).2) eps n' _
                le_rfl (by omega) le_rfl]
        · rw [if_neg hguard, if_neg hguard]
      · rw [if_neg hgt, if_neg hgt]

theorem head!_append {A : Type} [Inhabited A] (l1 l2 : List A) (h : l1 ≠ []) : (l1 ++ l2).head! = l1.head! := by
  cases l1 with
  | nil => exact absurd rfl h
  | cons a t => rfl

theorem getLast!_append {A : Type} [Inhabited A] (l1 l2 : List A) (h : l2 ≠ []) :
    (l1 ++ l2).getLast! = l2.getLast! := by
  conv_lhs => rw [← dropLast_concat_getLast! l2 h]
  rw [← List.append_assoc, getLast!_concat]

theorem head!_dropLast {A : Type} [Inhabited A] (l : List A) (h : 2 ≤ l.length) : l.dropLast.head! = l.head! := by
  cases l with
  | nil => simp at h
  | cons a t =>
    cases t with
    | nil => simp at h
    | cons b u => simp [List.dropLast_cons₂, head!_cons]

theorem head!_take {A : Type} [Inhabited A] (pts : List A) (n : ℕ) (hn : 1 ≤ n) (h : pts ≠ []) :
    (pts.take n).head! = pts.head! := by
  cases pts with
  | nil => exact absurd rfl h
  | cons a t =>
    cases n with
    | zero => omega
    | succ m => rfl

theorem getLast!_drop {A : Type} [Inhabited A] (pts : List A) (s : ℕ) (h : s < pts.length) :
    (pts.drop s).getLast! = pts.getLast! := by
  conv_rhs => rw [← List.take_append_drop s pts]
  rw [getLast!_append]
  intro hnil
  have := congrArg List.length hnil
  simp [List.length_drop] at this
  omega

theorem ne_nil_of_two_le {A : Type} (l : List A) (h : 2 ≤ l.length) : l ≠ [] :=
  List.ne_nil_of_length_pos (by omega)

theorem dropLast_ne_nil_of_two_le {A : Type} (l : List A) (h : 2 ≤ l.length) : l.dropLast ≠ [] := by
  apply List.ne_nil_of_length_pos
  rw [List.length_dropLast]
  omega

theorem sublist_concat_dropLast {A : Type} (X Y : List A) (z : A) (h : X <+ Y ++ [z]) :
    X.dropLast <+ Y := by
  rcases List.sublist_append_iff.mp h with ⟨X1, X2, hX, h1, h2⟩
  have h2' : X2 = [] ∨ X2 = [z] := by
    cases h2 with
    | cons _ hs => exact Or.inl (List.sublist_nil.mp hs)
    | cons₂ _ hs => simp [List.sublist_nil.mp hs]
  rcases h2' with h2' | h2'
  · subst h2'
    rw [hX, List.append_nil]
    exact (List.dropLast_sublist X1).trans h1
  · subst h2'
    rw [hX, List.dropLast_concat]
    exact h1

theorem take_eq_take_concat {A : Type} [Inhabited A] (pts : List A) (s : ℕ) (h : s < pts.length) :
    pts.take (s + 1) = pts.take s ++ [pts[s]!] := by
  rw [List.take_succ]
  congr 1
  rw [List.getElem?_eq_getElem h]
  simp [getElem!_pos pts s h]

/-- The combined structural invariant of rdp: the output has at least two
points, keeps the endpoints, and is a sublist of the input. -/
theorem rdp_struct : ∀ (k : ℕ) (pts : List Pt), pts.length ≤ k → ∀ eps : ℚ,
    2 ≤ pts.length →
    2 ≤ (rdp pts eps).length ∧ (rdp pts eps).head! = pts.head! ∧
      (rdp pts eps).getLast! = pts.getLast! ∧ (rdp pts eps) <+ pts := by
  intro k
  induction k with
  | zero => intro pts hk eps h2; omega
  | succ k ih =>
    intro pts hk eps h2
    rw [rdp_eq]
    by_cases h3 : pts.length < 3
    · rw [if_pos h3]
      exact ⟨h2, rfl, rfl, List.Sublist.refl pts⟩
    · rw [if_neg h3]
      have hcollapse :
          2 ≤ ([pts.head!, pts.getLast!] : List Pt).length ∧
          ([pts.head!, pts.getLast!] : List Pt).head! = pts.head! ∧
          ([pts.head!, pts.getLast!] : List Pt).getLast! = pts.getLast! ∧
          ([pts.head!, pts.getLast!] : List Pt) <+ pts := by
      -- [head, last] is two points, trivially keeps endpoints, and embeds
      -- into head :: interior ++ [last]
        refine ⟨by simp, rfl, ?_, ?_⟩
        · show ([pts.head!] ++ [pts.getLast!]).getLast! = pts.getLast!
          exact getLast!_concat _ _
        · conv_rhs => rw [list_shape pts h2]
          rw [show ([pts.head!, pts.getLast!] : List Pt) =
            pts.head! :: [pts.getLast!] from rfl]
          exact List.cons_sublist_cons.mpr
            (List.sublist_append_of_sublist_right (List.Sublist.refl _))
      by_cases hgt : sqrtGtB (maxDistScan pts).1 eps
      · rw [if_pos hgt]
        by_cases hguard : 1 ≤ (maxDistScan pts).2
        · rw [if_pos hguard]
          rcases maxDistScan_idx pts with h0 | ⟨_, hub⟩
          · omega
          · set s := (maxDistScan pts).2 with hs
            have htlen : (pts.take (s + 1)).length = s + 1 := by
              rw [List.length_take]; omega
            have hdlen : (pts.drop s).length = pts.length - s := List.length_drop _ _
            have hA := ih (pts.take (s + 1)) (by omega) eps (by omega)
            have hB := ih (pts.drop s) (by omega) eps (by omega)
            obtain ⟨hA2, hAh, hAl, hAsub⟩ := hA
            obtain ⟨hB2, hBh, hBl, hBsub⟩ := hB
            set A := rdp (pts.take (s + 1)) eps with hAdef
            set B := rdp (pts.drop s) eps with hBdef
            have hAne : A ≠ [] := ne_nil_of_two_le A hA2
            have hBne : B ≠ [] := ne_nil_of_two_le B hB2
            have hAdne : A.dropLast ≠ [] := dropLast_ne_nil_of_two_le A hA2
            refine ⟨?_, ?_, ?_, ?_⟩
            · rw [List.length_append, List.length_dropLast]
              omega
            · rw [head!_append _ _ hAdne, head!_dropLast A hA2, hAh,
                head!_take pts (s + 1) (by omega) (ne_nil_of_two_le pts h2)]
            · rw [getLast!_append _ _ hBne, hBl, getLast!_drop pts s (by omega)]
            · have hsubA : A.dropLast <+ pts.take s := by
                apply sublist_concat_dropLast A (pts.take s) (pts[s]!)
                rw [← take_eq_take_concat pts s (by omega)]
                exact hAsub
              have := List.Sublist.append hsubA hBsub
              rwa [List.take_append_drop s pts] at this
        · rw [if_neg hguard]
          exact hcollapse
      · rw [if_neg hgt]
        exact hcollapse

theorem distPointSeg2_self_start (s e : Pt) : distPointSeg2 s s e = 0 := by
  unfold distPointSeg2
  dsimp only
  split
  · ring_nf
  · norm_num

theorem distPointSeg2_self_end (s e : Pt) : distPointSeg2 e s e = 0 := by
  unfold distPointSeg2
  dsimp only
  split
  · rename_i h
    rw [show e.1 - s.1 = 0 from h.1, show e.2 - s.2 = 0 from h.2]
    norm_num
  · rename_i h
    have hden : (e.1 - s.1) * (e.1 - s.1) + (e.2 - s.2) * (e.2 - s.2) ≠ 0 := by
      intro h0
      have h1 : (e.1 - s.1) = 0 ∧ (e.2 - s.2) = 0 := by
        constructor <;> nlinarith [sq_nonneg (e.1 - s.1), sq_nonneg (e.2 - s.2)]
      exact h h1
    rw [div_self hden]
    norm_num

theorem take_append_cons {A : Type} (l1 : List A) (x : A) (l2 : List A) :
    (l1 ++ x :: l2).take (l1.length + 1) = l1 ++ [x] := by
  induction l1 with
  | nil => rfl
  | cons a t ih => simp [List.take_succ_cons, ih]

/-- Forward characterization of the scan for a polyline in split shape:
strictly dominated prefix, the maximizer, dominated suffix. -/
theorem maxDistScan_of_shape (h lst pm : Pt) (pre post : List Pt) (M : ℚ)
    (pts : List Pt)
    (hpts : pts = h :: ((pre ++ pm :: post) ++ [lst]))
    (hM : distPointSeg2 pm h lst = M) (hMpos : 0 < M)
    (hpre : ∀ x ∈ pre, distPointSeg2 x h lst < M)
    (hpost : ∀ x ∈ post, distPointSeg2 x h lst ≤ M) :
    maxDistScan pts = (M, 1 + pre.length) := by
  have hh : pts.head! = h := by rw [hpts]; rfl
  have hl : pts.getLast! = lst := by
    rw [hpts, show h :: ((pre ++ pm :: post) ++ [lst]) =
      (h :: (pre ++ pm :: post)) ++ [lst] from rfl]
    exact getLast!_concat _ _
  have hint : (pts.drop 1).dropLast = pre ++ pm :: post := by
    rw [hpts]
    simp only [List.drop_succ_cons, List.drop_zero, List.dropLast_concat]
  unfold maxDistScan
  rw [hh, hl, hint, scanGo_append]
  have hst1 : (scanGo h lst pre 1 (0, 0)).1 < M :=
    scanGo_max_lt h lst M pre 1 (0, 0) hpre hMpos
  show scanGo h lst (pm :: post) (1 + pre.length) (scanGo h lst pre 1 (0, 0)) = _
  simp only [scanGo, if_pos (hM ▸ hst1)]
  rw [scanGo_no_update h lst post (1 + pre.length + 1) (distPointSeg2 pm h lst, 1 + pre.length)
    (by rw [hM]; exact hpost)]
  rw [hM]

/-- C6: rdp is idempotent for every nonnegative epsilon: simplifying an
already simplified polyline with the same tolerance changes nothing.
The second pass recomputes the same chord (rdp preserves endpoints), the
retained maximizer is still the first maximizer among the retained
points, so the recursion splits at exactly the same points. -/
theorem C6_rdp_idempotent : ∀ (pts : List Pt) (eps : ℚ), 0 ≤ eps →
    rdp (rdp pts eps) eps = rdp pts eps := by
  suffices h : ∀ (k : ℕ) (pts : List Pt), pts.length ≤ k → ∀ eps : ℚ, 0 ≤ eps →
      rdp (rdp pts eps) eps = rdp pts eps by
    intro pts eps heps
    exact h pts.length pts le_rfl eps heps
  intro k
  induction k with
  | zero =>
    intro pts hk eps heps
    have hnil : pts = [] := List.length_eq_zero.mp (Nat.le_zero.mp hk)
    subst hnil
    have h0 : rdp ([] : List Pt) eps = [] := by
      rw [rdp_eq]
      simp
    rw [h0, h0]
  | succ k ih =>
    intro pts hk eps heps
    by_cases h3 : pts.length < 3
    · -- short input: rdp is the identity twice
      have hid : rdp pts eps = pts := by rw [rdp_eq, if_pos h3]
      rw [hid, hid]
    · have h2 : 2 ≤ pts.length := by omega
      by_cases hgt : sqrtGtB (maxDistScan pts).1 eps
      · -- split case
        have hMpos : 0 < (maxDistScan pts).1 := by
          unfold sqrtGtB at hgt
          rw [Bool.or_eq_true, decide_eq_true_iff, decide_eq_true_iff] at hgt
          rcases hgt with hbad | hlt
          · linarith
          · nlinarith [sq_nonneg eps]
        rcases maxDistScan_cases pts with ⟨hZ, _, _⟩ | ⟨pre, pm, post, hint, heq, hpm, hpre, hpost⟩
        · rw [hZ] at hMpos
          exact absurd hMpos (lt_irrefl 0)
        · set h := pts.head! with hh
          set lst := pts.getLast! with hlst
          set M := distPointSeg2 pm h lst with hMdef
          have hshape : pts = h :: ((pre ++ pm :: post) ++ [lst]) := by
            conv_lhs => rw [list_shape pts h2]
            rw [hint]
          have hs1 : (maxDistScan pts).1 = M := by rw [heq, hMdef]
          have hs2 : (maxDistScan pts).2 = 1 + pre.length := by rw [heq]
          have hguard : 1 ≤ (maxDistScan pts).2 := by omega
          -- the two sub-polylines
          have htake : pts.take ((maxDistScan pts).2 + 1) = h :: (pre ++ [pm]) := by
            rw [hs2, hshape]
            rw [show (pre ++ pm :: post) ++ [lst] = pre ++ pm :: (post ++ [lst]) by
              simp [List.append_assoc]]
            rw [show 1 + pre.length + 1 = (pre.length + 1) + 1 by omega]
            rw [List.take_succ_cons, take_append_cons]
          have hdrop : pts.drop (maxDistScan pts).2 = pm :: (post ++ [lst]) := by
            rw [hs2, hshape]
            rw [show (pre ++ pm :: post) ++ [lst] = pre ++ pm :: (post ++ [lst]) by
              simp [List.append_assoc]]
            rw [show 1 + pre.length = pre.length + 1 by omega]
            rw [List.drop_succ_cons, List.drop_left]
          have hlenpts : pts.length = pre.length + post.length + 3 := by
            have := interior_length pts
            rw [hint] at this
            simp only [List.length_append, List.length_cons] at this
            omega
          -- rdp of the two halves
          set TA := h :: (pre ++ [pm]) with hTA
          set TB := pm :: (post ++ [lst]) with hTB
          have hTAlen : TA.length = pre.length + 2 := by simp [hTA]
          have hTBlen : TB.length = post.length + 2 := by simp [hTB]
          obtain ⟨hA2, hAh, hAl, hAsub⟩ := rdp_struct TA.length TA le_rfl eps (by omega)
          obtain ⟨hB2, hBh, hBl, hBsub⟩ := rdp_struct TB.length TB le_rfl eps (by omega)
          set A := rdp TA eps with hAdef
          set B := rdp TB eps with hBdef
          have hAh' : A.head! = h := by rw [hAh, hTA]; rfl
          have hAl' : A.getLast! = pm := by
            rw [hAl, hTA, show h :: (pre ++ [pm]) = (h :: pre) ++ [pm] from rfl]
            exact getLast!_concat _ _
          have hBh' : B.head! = pm := by rw [hBh, hTB]; rfl
          have hBl' : B.getLast! = lst := by
            rw [hBl, hTB, show pm :: (post ++ [lst]) = (pm :: post) ++ [lst] from rfl]
            exact getLast!_concat _ _
          -- unfold the first rdp
          have hrdp1 : rdp pts eps = A.dropLast ++ B := by
            rw [rdp_eq, if_neg h3, if_pos hgt, if_pos hguard, htake, hdrop]
          -- interior shapes of A and B
          set Amid := (A.drop 1).dropLast with hAmid
          set Bmid := (B.drop 1).dropLast with hBmid
          have hAshape : A = h :: (Amid ++ [pm]) := by
            conv_lhs => rw [list_shape A hA2]
            rw [hAh', hAl']
          have hBshape : B = pm :: (Bmid ++ [lst]) := by
            conv_lhs => rw [list_shape B hB2]
            rw [hBh', hBl']
          have hAdrop : A.dropLast = h :: Amid := by
            rw [hAshape, show h :: (Amid ++ [pm]) = (h :: Amid) ++ [pm] from rfl,
              List.dropLast_concat]
          have hR : rdp pts eps = h :: ((Amid ++ pm :: Bmid) ++ [lst]) := by
            rw [hrdp1, hAdrop, hBshape]
            simp [List.append_assoc]
          have hM0 : 0 < M := by
            rw [← hs1]
            exact hMpos
          -- the maximizer value occurs nowhere else in the left half
          have hpm_h : h ≠ pm := by
            intro hcontra
            have hz : M = 0 := by rw [hMdef, ← hcontra, distPointSeg2_self_start]
            rw [hz] at hM0
            exact lt_irrefl 0 hM0
          have hpm_pre : pm ∉ pre := by
            intro hmem
            exact absurd (hpre pm hmem) (lt_irrefl M)
          have hpmAmid : pm ∉ Amid := by
            intro hmem
            have hcTA : TA.count pm = 1 := by
              rw [hTA, List.count_cons_of_ne (by
                  intro hcontra
                  exact hpm_h (by exact hcontra.symm ▸ rfl)),
                List.count_append, List.count_eq_zero.mpr hpm_pre]
              simp
            have hcA : 2 ≤ A.count pm := by
              rw [hAshape, List.count_cons_of_ne (by
                  intro hcontra
                  exact hpm_h (by exact hcontra.symm ▸ rfl)),
                List.count_append]
              have h1 : 1 ≤ Amid.count pm := List.count_pos_iff.mpr hmem
              have h2 : ([pm] : List Pt).count pm = 1 := by simp
              omega
            have hle := hAsub.count_le pm
            omega
          -- distances of the retained interiors
          have hAmidlt : ∀ x ∈ Amid, distPointSeg2 x h lst < M := by
            intro x hx
            have hxA : x ∈ A := by
              rw [hAshape]
              simp [hx]
            have hxTA : x ∈ TA := hAsub.mem hxA
            rw [hTA] at hxTA
            rcases List.mem_cons.mp hxTA with hxh | hxm
            · subst hxh
              rw [distPointSeg2_self_start]
              exact hM0
            · rcases List.mem_append.mp hxm with hxp | hxpm
              · exact hpre x hxp
              · exact absurd (List.mem_singleton.mp hxpm ▸ hx) hpmAmid
          have hBmidle : ∀ x ∈ Bmid, distPointSeg2 x h lst ≤ M := by
            intro x hx
            have hxB : x ∈ B := by
              rw [hBshape]
              simp [hx]
            have hxTB : x ∈ TB := hBsub.mem hxB
            rw [hTB] at hxTB
            rcases List.mem_cons.mp hxTB with hxh | hxm
            · rw [hxh, ← hMdef]
            · rcases List.mem_append.mp hxm with hxp | hxl
              · exact hpost x hxp
              · rw [List.mem_singleton.mp hxl, distPointSeg2_self_end]
                exact le_of_lt hM0
          -- the second pass finds the same maximizer at the same place
          have hRscan : maxDistScan (rdp pts eps) = (M, 1 + Amid.length) :=
            maxDistScan_of_shape h lst pm Amid Bmid M (rdp pts eps) hR
              hMdef.symm hM0 hAmidlt hBmidle
          have hRlen : (rdp pts eps).length = Amid.length + Bmid.length + 3 := by
            rw [hR]
            simp
            omega
          rw [rdp_eq (rdp pts eps) eps, if_neg (by omega), hRscan, if_pos (by
              rw [hs1] at hgt
              exact hgt),
            if_pos (by omega : 1 ≤ (M, 1 + Amid.length).2)]
          have hRtake : (rdp pts eps).take ((M, 1 + Amid.length).2 + 1) = A := by
            rw [hR]
            rw [show (Amid ++ pm :: Bmid) ++ [lst] = Amid ++ pm :: (Bmid ++ [lst]) by
              simp [List.append_assoc]]
            rw [show (M, 1 + Amid.length).2 + 1 = (Amid.length + 1) + 1 by simp; omega]
            rw [List.take_succ_cons, take_append_cons]
            exact hAshape.symm
          have hRdrop : (rdp pts eps).drop (M, 1 + Amid.length).2 = B := by
            rw [hR]
            rw [show (Amid ++ pm :: Bmid) ++ [lst] = Amid ++ pm :: (Bmid ++ [lst]) by
              simp [List.append_assoc]]
            rw [show (M, 1 + Amid.length).2 = Amid.length + 1 by simp; omega]
            rw [List.drop_succ_cons, List.drop_left]
            exact hBshape.symm
          rw [hRtake, hRdrop]
          have hihA : rdp A eps = A := by
            rw [hAdef]
            exact ih TA (by omega) eps heps
          have hihB : rdp B eps = B := by
            rw [hBdef]
            exact ih TB (by omega) eps heps
          rw [hihA, hihB, hrdp1]
      · -- collapse case: the result is the two endpoints, a fixed point
        have hcoll : rdp pts eps = [pts.head!, pts.getLast!] := by
          rw [rdp_eq, if_neg h3, if_neg hgt]
        rw [hcoll, rdp_eq, if_pos (by simp)]

/-! ### The RDP bound (claim C7): removed points stay within eps of the
segment of the simplified polyline joining their surrounding retained
points.  The statement is a decomposition: the input is the output with
a (possibly empty) run of removed points inserted between each pair of
consecutive retained points, and every removed point of a run is within
eps of the segment joining that pair. -/

/-- Rebuild a polyline from retained points and the runs of removed
points between consecutive retained points. -/
def interleave : List Pt → List (List Pt) → List Pt
  | [], _ => []
  | [r], _ => [r]
  | r :: R, [] => r :: interleave R []
  | r :: R, g :: G => r :: (g ++ interleave R G)

/-- Every removed run lies within eps (squared comparison) of the
segment joining its two surrounding retained points. -/
def gapsOk (eps : ℚ) : List Pt → List (List Pt) → Prop
  | r1 :: r2 :: R, g :: G =>
      (∀ p ∈ g, distPointSeg2 p r1 r2 ≤ eps ^ 2) ∧ gapsOk eps (r2 :: R) G
  | _, _ => True

theorem interleave_ne_nil (R : List Pt) (G : List (List Pt)) (h : R ≠ []) :
    interleave R G ≠ [] := by
  cases R with
  | nil => exact absurd rfl h
  | cons r R' =>
    cases R' with
    | nil => cases G <;> simp [interleave]
    | cons r2 R'' => cases G <;> simp [interleave]

theorem interleave_replicate_nil : ∀ R : List Pt,
    interleave R (List.replicate (R.length - 1) []) = R := by
  intro R
  induction R with
  | nil => rfl
  | cons r R' ih =>
    cases R' with
    | nil => rfl
    | cons r2 R'' =>
      have hlen : (r :: r2 :: R'').length - 1 = ((r2 :: R'').length - 1) + 1 := by
        simp
      rw [hlen, List.replicate_succ]
      show r :: ([] ++ interleave (r2 :: R'') (List.replicate ((r2 :: R'').length - 1) [])) =
        r :: r2 :: R''
      rw [List.nil_append, ih]

theorem gapsOk_replicate_nil (eps : ℚ) : ∀ (R : List Pt) (n : ℕ),
    gapsOk eps R (List.replicate n []) := by
  intro R
  induction R with
  | nil => intro n; cases n <;> trivial
  | cons r R' ih =>
    intro n
    cases R' with
    | nil => cases n <;> trivial
    | cons r2 R'' =>
      cases n with
      | zero => trivial
      | succ m =>
        rw [List.replicate_succ]
        exact ⟨by simp, ih m⟩

theorem interleave_glue : ∀ (A : List Pt) (gA : List (List Pt)) (B : List Pt)
    (gB : List (List Pt)), 2 ≤ A.length → gA.length = A.length - 1 → B ≠ [] →
    interleave (A.dropLast ++ B) (gA ++ gB) =
      (interleave A gA).dropLast ++ interleave B gB := by
  intro A
  induction A with
  | nil => intro gA B gB h2; simp at h2
  | cons a A' ih =>
    intro gA B gB h2 hlen hB
    cases A' with
    | nil => simp at h2
    | cons a2 A'' =>
      obtain ⟨g, gA', hgA⟩ : ∃ g gA', gA = g :: gA' := by
        cases gA with
        | nil => simp at hlen
        | cons g gA' => exact ⟨g, gA', rfl⟩
      subst hgA
      cases A'' with
      | nil =>
        -- A = [a, a2]
        obtain ⟨b, B', hBdec⟩ : ∃ b B', B = b :: B' := by
          cases B with
          | nil => exact absurd rfl hB
          | cons b B' => exact ⟨b, B', rfl⟩
        have hgA' : gA' = [] := by simpa using hlen
        subst hgA' hBdec
        show interleave (a :: b :: B') (g :: gB) =
          (interleave [a, a2] [g]).dropLast ++ interleave (b :: B') gB
        have h1 : interleave [a, a2] [g] = a :: (g ++ [a2]) := by
          show a :: (g ++ interleave [a2] []) = _
          rfl
        rw [h1, show a :: (g ++ [a2]) = (a :: g) ++ [a2] from rfl, List.dropLast_concat]
        show a :: (g ++ interleave (b :: B') gB) = (a :: g) ++ interleave (b :: B') gB
        rfl
      | cons a3 A''' =>
        -- A = a :: A' with A' of length ≥ 2
        have hA'2 : 2 ≤ (a2 :: a3 :: A''').length := by simp
        have hlen' : gA'.length = (a2 :: a3 :: A''').length - 1 := by
          simp at hlen ⊢
          omega
        have hdl : (a :: a2 :: a3 :: A''').dropLast = a :: (a2 :: a3 :: A''').dropLast := by
          rfl
        rw [hdl]
        have hdlne : (a2 :: a3 :: A''').dropLast ≠ [] := by simp
        show a :: (g ++ interleave ((a2 :: a3 :: A''').dropLast ++ B) (gA' ++ gB)) = _
        rw [ih gA' B gB hA'2 hlen' hB]
        have hint : interleave (a :: a2 :: a3 :: A''') (g :: gA') =
            a :: (g ++ interleave (a2 :: a3 :: A''') gA') := rfl
        rw [hint]
        have hne : interleave (a2 :: a3 :: A''') gA' ≠ [] :=
          interleave_ne_nil _ _ (by simp)
        rw [show a :: (g ++ interleave (a2 :: a3 :: A''') gA') =
          (a :: g) ++ interleave (a2 :: a3 :: A''') gA' from rfl,
          List.dropLast_append_of_ne_nil _ hne]
        simp [List.append_assoc]

theorem gapsOk_glue : ∀ (A : List Pt) (gA : List (List Pt)) (B : List Pt)
    (gB : List (List Pt)) (eps : ℚ), 2 ≤ A.length → gA.length = A.length - 1 →
    2 ≤ B.length → A.getLast! = B.head! →
    gapsOk eps A gA → gapsOk eps B gB →
    gapsOk eps (A.dropLast ++ B) (gA ++ gB) := by
  intro A
  induction A with
  | nil => intro gA B gB eps h2; simp at h2
  | cons a A' ih =>
    intro gA B gB eps h2 hlen hB2 hjoin hOkA hOkB
    cases A' with
    | nil => simp at h2
    | cons a2 A'' =>
      obtain ⟨g, gA', hgA⟩ : ∃ g gA', gA = g :: gA' := by
        cases gA with
        | nil => simp at hlen
        | cons g gA' => exact ⟨g, gA', rfl⟩
      subst hgA
      obtain ⟨b1, b2, B', hBdec⟩ : ∃ b1 b2 B', B = b1 :: b2 :: B' := by
        cases B with
        | nil => simp at hB2
        | cons b1 B0 =>
          cases B0 with
          | nil => simp at hB2
          | cons b2 B' => exact ⟨b1, b2, B', rfl⟩
      subst hBdec
      cases A'' with
      | nil =>
        -- A = [a, a2]; a2 is the junction point shared with B
        have ha2 : a2 = b1 := by
          have hlast : ([a, a2] : List Pt).getLast! = a2 := by
            show ([a] ++ [a2] : List Pt).getLast! = a2
            exact getLast!_concat _ _
          rw [hlast] at hjoin
          exact hjoin
        have hgA' : gA' = [] := by simpa using hlen
        subst hgA' ha2
        rcases hOkA with ⟨hg, -⟩
        exact ⟨hg, hOkB⟩
      | cons a3 A''' =>
        obtain ⟨hg, hrest⟩ : (∀ p ∈ g, distPointSeg2 p a a2 ≤ eps ^ 2) ∧
            gapsOk eps (a2 :: a3 :: A''') gA' := hOkA
        have hjoin2 : (a2 :: a3 :: A''').getLast! = (b1 :: b2 :: B').head! := by
          rw [← hjoin, getLast!_cons_cons a a2 (a3 :: A''')]
        have hihres := ih gA' (b1 :: b2 :: B') gB eps (by simp)
          (by simp at hlen ⊢; omega) (by simp) hjoin2 hrest hOkB
        show gapsOk eps (a :: ((a2 :: a3 :: A''').dropLast ++ (b1 :: b2 :: B')))
          ((g :: gA') ++ gB)
        have hshape : (a2 :: a3 :: A''').dropLast ++ (b1 :: b2 :: B') =
            a2 :: ((a3 :: A''').dropLast ++ (b1 :: b2 :: B')) := rfl
        rw [hshape]
        exact ⟨hg, by rw [← hshape]; exact hihres⟩

/-- C7: every input point removed by rdp lies within eps (point-to-
segment distance with clamped projection, compared via squares) of the
segment of the simplified polyline joining the retained points that
surround it: the input is exactly the output interleaved with runs of
removed points, and each run is bounded by eps against its surrounding
segment. -/
theorem C7_rdp_removed_within_eps : ∀ (pts : List Pt) (eps : ℚ), 0 ≤ eps →
    ∃ gaps : List (List Pt),
      gaps.length = (rdp pts eps).length - 1 ∧
      pts = interleave (rdp pts eps) gaps ∧
      gapsOk eps (rdp pts eps) gaps := by
  suffices h : ∀ (k : ℕ) (pts : List Pt), pts.length ≤ k → ∀ eps : ℚ, 0 ≤ eps →
      ∃ gaps : List (List Pt),
        gaps.length = (rdp pts eps).length - 1 ∧
        pts = interleave (rdp pts eps) gaps ∧
        gapsOk eps (rdp pts eps) gaps by
    intro pts eps heps
    exact h pts.length pts le_rfl eps heps
  intro k
  induction k with
  | zero =>
    intro pts hk eps heps
    have hnil : pts = [] := List.length_eq_zero.mp (Nat.le_zero.mp hk)
    subst hnil
    have h0 : rdp ([] : List Pt) eps = [] := by
      rw [rdp_eq]
      simp
    refine ⟨[], by simp [h0], by rw [h0]; rfl, by rw [h0]; trivial⟩
  | succ k ih =>
    intro pts hk eps heps
    by_cases h3 : pts.length < 3
    · have hid : rdp pts eps = pts := by rw [rdp_eq, if_pos h3]
      refine ⟨List.replicate (pts.length - 1) [], ?_, ?_, ?_⟩
      · simp [hid]
      · rw [hid, interleave_replicate_nil]
      · rw [hid]
        exact gapsOk_replicate_nil eps pts (pts.length - 1)
    · have h2 : 2 ≤ pts.length := by omega
      by_cases hgt : sqrtGtB (maxDistScan pts).1 eps
      · -- split case
        have hMpos : 0 < (maxDistScan pts).1 := by
          unfold sqrtGtB at hgt
          rw [Bool.or_eq_true, decide_eq_true_iff, decide_eq_true_iff] at hgt
          rcases hgt with hbad | hlt
          · linarith
          · nlinarith [sq_nonneg eps]
        rcases maxDistScan_cases pts with ⟨hZ, _, _⟩ |
          ⟨pre, pm, post, hint, heq, hpm, hpre, hpost⟩
        · rw [hZ] at hMpos
          exact absurd hMpos (lt_irrefl 0)
        · set h := pts.head! with hh
          set lst := pts.getLast! with hlst
          set M := distPointSeg2 pm h lst with hMdef
          have hshape : pts = h :: ((pre ++ pm :: post) ++ [lst]) := by
            conv_lhs => rw [list_shape pts h2]
            rw [hint]
          have hs2 : (maxDistScan pts).2 = 1 + pre.length := by rw [heq]
          have hguard : 1 ≤ (maxDistScan pts).2 := by omega
          have htake : pts.take ((maxDistScan pts).2 + 1) = h :: (pre ++ [pm]) := by
            rw [hs2, hshape]
            rw [show (pre ++ pm :: post) ++ [lst] = pre ++ pm :: (post ++ [lst]) by
              simp [List.append_assoc]]
            rw [show 1 + pre.length + 1 = (pre.length + 1) + 1 by omega]
            rw [List.take_succ_cons, take_append_cons]
          have hdrop : pts.drop (maxDistScan pts).2 = pm :: (post ++ [lst]) := by
            rw [hs2, hshape]
            rw [show (pre ++ pm :: post) ++ [lst] = pre ++ pm :: (post ++ [lst]) by
              simp [List.append_assoc]]
            rw [show 1 + pre.length = pre.length + 1 by omega]
            rw [List.drop_succ_cons, List.drop_left]
          have hlenpts : pts.length = pre.length + post.length + 3 := by
            have := interior_length pts
            rw [hint] at this
            simp only [List.length_append, List.length_cons] at this
            omega
          set TA := h :: (pre ++ [pm]) with hTA
          set TB := pm :: (post ++ [lst]) with hTB
          have hTAlen : TA.length = pre.length + 2 := by simp [hTA]
          have hTBlen : TB.length = post.length + 2 := by simp [hTB]
          obtain ⟨hA2, hAh, hAl, hAsub⟩ := rdp_struct TA.length TA le_rfl eps (by omega)
          obtain ⟨hB2, hBh, hBl, hBsub⟩ := rdp_struct TB.length TB le_rfl eps (by omega)
          set A := rdp TA eps with hAdef
          set B := rdp TB eps with hBdef
          have hAl' : A.getLast! = pm := by
            rw [hAl, hTA, show h :: (pre ++ [pm]) = (h :: pre) ++ [pm] from rfl]
            exact getLast!_concat _ _
          have hBh' : B.head! = pm := by rw [hBh, hTB]; rfl
          have hrdp1 : rdp pts eps = A.dropLast ++ B := by
            rw [rdp_eq, if_neg h3, if_pos hgt, if_pos hguard, htake, hdrop]
          obtain ⟨gA, hgAlen, hgAint, hgAok⟩ := ih TA (by omega) eps heps
          obtain ⟨gB, hgBlen, hgBint, hgBok⟩ := ih TB (by omega) eps heps
          rw [← hAdef] at hgAlen hgAint hgAok
          rw [← hBdef] at hgBlen hgBint hgBok
          refine ⟨gA ++ gB, ?_, ?_, ?_⟩
          · rw [hrdp1]
            simp only [List.length_append, List.length_dropLast]
            omega
          · rw [hrdp1, interleave_glue A gA B gB hA2 hgAlen (ne_nil_of_two_le B hB2),
              ← hgAint, ← hgBint]
            have hTAdl : TA.dropLast = h :: pre := by
              rw [hTA, show h :: (pre ++ [pm]) = (h :: pre) ++ [pm] from rfl,
                List.dropLast_concat]
            rw [hTAdl, hTB, hshape]
            simp [List.append_assoc]
          · rw [hrdp1]
            exact gapsOk_glue A gA B gB eps hA2 hgAlen hB2 (by rw [hAl', hBh']) hgAok hgBok
      · -- collapse case
        have hcoll : rdp pts eps = [pts.head!, pts.getLast!] := by
          rw [rdp_eq, if_neg h3, if_neg hgt]
        have hMle : (maxDistScan pts).1 ≤ eps ^ 2 := by
          unfold sqrtGtB at hgt
          rw [Bool.or_eq_true, decide_eq_true_iff, decide_eq_true_iff] at hgt
          push_neg at hgt
          exact hgt.2
        refine ⟨[(pts.drop 1).dropLast], ?_, ?_, ?_⟩
        · simp [hcoll]
        · rw [hcoll]
          show pts = pts.head! :: ((pts.drop 1).dropLast ++
            interleave [pts.getLast!] [])
          show pts = pts.head! :: ((pts.drop 1).dropLast ++ [pts.getLast!])
          exact list_shape pts h2
        · rw [hcoll]
          refine ⟨?_, trivial⟩
          intro p hp
          exact le_trans (maxDistScan_bounds pts p hp) hMle

/-- C6 witness: idempotence at a concrete polyline and tolerance. -/
theorem C6_witness :
    rdp (rdp [((0 : ℚ), (0 : ℚ)), (1, 5), (2, 0)] 1) 1 =
      rdp [((0 : ℚ), (0 : ℚ)), (1, 5), (2, 0)] 1 :=
  C6_rdp_idempotent [((0 : ℚ), (0 : ℚ)), (1, 5), (2, 0)] 1 (by norm_num)

/-- C7 witness: the decomposition exists at a concrete polyline. -/
theorem C7_witness :
    ∃ gaps : List (List Pt),
      gaps.length = (rdp [((0 : ℚ), (0 : ℚ)), (1, 0), (2, 0)] 1).length - 1 ∧
      [((0 : ℚ), (0 : ℚ)), (1, 0), (2, 0)] =
        interleave (rdp [((0 : ℚ), (0 : ℚ)), (1, 0), (2, 0)] 1) gaps ∧
      gapsOk 1 (rdp [((0 : ℚ), (0 : ℚ)), (1, 0), (2, 0)] 1) gaps :=
  C7_rdp_removed_within_eps [((0 : ℚ), (0 : ℚ)), (1, 0), (2, 0)] 1 (by norm_num)

/-- C10: for any nonempty polyline and nonnegative epsilon, the rdp
output is a subsequence of the input (every output point is an input
point, in input order) whose first and last elements are the input's
first and last points. -/
theorem C10_rdp_subsequence (pts : List Pt) (eps : ℚ) (heps : 0 ≤ eps)
    (h1 : 1 ≤ pts.length) :
    (rdp pts eps).Sublist pts ∧ (rdp pts eps).head! = pts.head! ∧
      (rdp pts eps).getLast! = pts.getLast! := by
  by_cases h2 : 2 ≤ pts.length
  · obtain ⟨_, hh, hl, hs⟩ := rdp_struct pts.length pts le_rfl eps h2
    exact ⟨hs, hh, hl⟩
  · have h3 : pts.length < 3 := by omega
    rw [rdp_eq, if_pos h3]
    exact ⟨List.Sublist.refl pts, rfl, rfl⟩

/-- C10 witness at a concrete polyline. -/
theorem C10_witness :
    (rdp [((0 : ℚ), (0 : ℚ)), (1, 5), (2, 0)] 1).Sublist
        [((0 : ℚ), (0 : ℚ)), (1, 5), (2, 0)] ∧
      (rdp [((0 : ℚ), (0 : ℚ)), (1, 5), (2, 0)] 1).head! =
        ([((0 : ℚ), (0 : ℚ)), (1, 5), (2, 0)] : List Pt).head! ∧
      (rdp [((0 : ℚ), (0 : ℚ)), (1, 5), (2, 0)] 1).getLast! =
        ([((0 : ℚ), (0 : ℚ)), (1, 5), (2, 0)] : List Pt).getLast! :=
  C10_rdp_subsequence [((0 : ℚ), (0 : ℚ)), (1, 5), (2, 0)] 1 (by norm_num) (by norm_num)

/-! ### Marching squares (the unnamed contour module, lines 382-624).

Point-deduplication keys are quantized coordinates; the source formats
them as strings and canonicalizes an undirected edge by string
comparison of the two keys.  The embedding keys by the quantized integer
pair itself (injectively encoded by the string) and canonicalizes by the
lexicographic order; the walk only ever tests keys for equality and
edge-ids for set membership, so any strict total order produces the
identical behavior. -/

/-- JS Math.round: round half up. -/
def jsRound (q : ℚ) : ℤ := ⌊q + 1 / 2⌋

/-- The quantized-coordinate key of ptKey. -/
abbrev Key := ℤ × ℤ

/-- ptKey: quantize both coordinates to 1/1000 pixel. -/
def ptKey (x y : ℚ) : Key := (jsRound (x * 1000), jsRound (y * 1000))

/-- A boundary segment: endpoint keys and endpoint points. -/
structure Seg where
  k1 : Key
  k2 : Key
  p1 : Pt
  p2 : Pt
deriving DecidableEq

/-- isOn: mask lookup; out-of-range indices read as background (the JS
array yields undefined, which is falsy). -/
def isOn (mask : List Bool) (width : ℕ) (x y : ℕ) : Bool :=
  mask.getD (y * width + x) false

/-- The segments contributed by one 2x2 cell (the body of the scan loop
of marchingSquares and marchingSquaresMulti). -/
def segsOfCell (mask : List Bool) (width : ℕ) (x y : ℕ) : List Seg :=
  let tl := isOn mask width x y
  let tr := isOn mask width (x + 1) y
  let br := isOn mask width (x + 1) (y + 1)
  let bl := isOn mask width x (y + 1)
  let c : ℕ := (cond tl 8 0) + (cond tr 4 0) + (cond br 2 0) + (cond bl 1 0)
  if c = 0 ∨ c = 15 then []
  else
    let top : Pt := ((x : ℚ) + 1 / 2, (y : ℚ))
    let right : Pt := ((x : ℚ) + 1, (y : ℚ) + 1 / 2)
    let bottom : Pt := ((x : ℚ) + 1 / 2, (y : ℚ) + 1)
    let left : Pt := ((x : ℚ), (y : ℚ) + 1 / 2)
    let crossings : List Pt :=
      (if tl ≠ tr then [top] else []) ++ (if tr ≠ br then [right] else []) ++
        (if br ≠ bl then [bottom] else []) ++ (if bl ≠ tl then [left] else [])
    if crossings.length = 2 then
      [⟨ptKey (crossings[0]!).1 (crossings[0]!).2,
        ptKey (crossings[1]!).1 (crossings[1]!).2, crossings[0]!, crossings[1]!⟩]
    else if crossings.length = 4 then
      if c = 5 then
        [⟨ptKey top.1 top.2, ptKey right.1 right.2, top, right⟩,
          ⟨ptKey bottom.1 bottom.2, ptKey left.1 left.2, bottom, left⟩]
      else if c = 10 then
        [⟨ptKey top.1 top.2, ptKey left.1 left.2, top, left⟩,
          ⟨ptKey bottom.1 bottom.2, ptKey right.1 right.2, bottom, right⟩]
      else []
    else []

/-- All segments of the 2x2-cell scan, in scan order. -/
def cellSegs (mask : List Bool) (width height : ℕ) : List Seg :=
  (List.range (height - 1)).flatMap (fun y =>
    (List.range (width - 1)).flatMap (fun x => segsOfCell mask width x y))

/-- Push a neighbor onto the adjacency list of a key (creating the entry
if missing), preserving push order. -/
def alPush (m : List (Key × List Key)) (k v : Key) : List (Key × List Key) :=
  match m with
  | [] => [(k, [v])]
  | (k0, vs) :: rest =>
    if k0 = k then (k0, vs ++ [v]) :: rest else (k0, vs) :: alPush rest k v

/-- Adjacency lookup. -/
def alGet (m : List (Key × List Key)) (k : Key) : List Key :=
  ((m.find? (fun e => e.1 == k)).map (fun e => e.2)).getD []

/-- The adjacency map of the crossing-point graph. -/
def buildAdj (segs : List Seg) : List (Key × List Key) :=
  segs.foldl (fun m s => alPush (alPush m s.k1 s.k2) s.k2 s.k1) []

/-- ptLookup.set: later segments overwrite. -/
def alSet (m : List (Key × Pt)) (k : Key) (v : Pt) : List (Key × Pt) :=
  match m with
  | [] => [(k, v)]
  | (k0, v0) :: rest =>
    if k0 = k then (k0, v) :: rest else (k0, v0) :: alSet rest k v

def buildLookup (segs : List Seg) : List (Key × Pt) :=
  segs.foldl (fun m s => alSet (alSet m s.k1 s.p1) s.k2 s.p2) []

def alGetPt (m : List (Key × Pt)) (k : Key) : Pt :=
  ((m.find? (fun e => e.1 == k)).map (fun e => e.2)).getD (0, 0)

/-- Strict order on keys used to canonicalize an undirected edge. -/
def keyLt (a b : Key) : Bool :=
  decide (a.1 < b.1 ∨ (a.1 = b.1 ∧ a.2 < b.2))

/-- edgeId: the canonical (unordered) form of an edge. -/
def edgeKId (a b : Key) : Key × Key := if keyLt a b then (a, b) else (b, a)

/-- Neighbor selection: the single neighbor, else the first neighbor
that is not the vertex just arrived from, else the second. -/
def pickNext (n : Key) (ns : List Key) (prev : Key) : Key :=
  match ns with
  | [] => n
  | n1 :: _ => if n ≠ prev then n else n1

/-- The path-walking while-loop.  Each non-final iteration marks one
previously unvisited edge, so any fuel above the number of graph edges
is equivalent to running the loop to its break. -/
def walkLoop (adj : List (Key × List Key)) (start : Key) :
    ℕ → List Key → Key → Key → List (Key × Key) → List Key × List (Key × Key)
  | 0, path, _, _, visited => (path, visited)
  | fuel + 1, path, prev, curr, visited =>
    match alGet adj curr with
    | [] => (path, visited)
    | n :: ns =>
      let next := pickNext n ns prev
      if next = start then (path ++ [next], visited)
      else if edgeKId curr next ∈ visited then (path, visited)
      else walkLoop adj start fuel (path ++ [next]) curr next
        (edgeKId curr next :: visited)

/-- The outer loop over segments: start a walk at every segment whose
edge is not yet visited. -/
def walkAll (adj : List (Key × List Key)) (fuel : ℕ) :
    List Seg → List (Key × Key) → List (List Key) → List (List Key) × List (Key × Key)
  | [], visited, paths => (paths, visited)
  | s :: rest, visited, paths =>
    if edgeKId s.k1 s.k2 ∈ visited then walkAll adj fuel rest visited paths
    else
      let r := walkLoop adj s.k1 fuel [s.k1, s.k2] s.k1 s.k2
        (edgeKId s.k1 s.k2 :: visited)
      walkAll adj fuel rest r.2 (paths ++ [r.1])

/-- The key-level paths produced by the walking phase. -/
def keyPaths (mask : List Bool) (width height : ℕ) : List (List Key) :=
  let segs := cellSegs mask width height
  (walkAll (buildAdj segs) (segs.length + 1) segs [] []).1

/-- marchingSquaresMulti (lines 515-624): up to maxContours paths sorted
by length descending (stable), filtered by minLength.  minLength is a
JS number, compared against the integer path length, so it stays
rational here. -/
def marchingSquaresMulti (mask : List Bool) (width height maxContours : ℕ)
    (minLength : ℚ) : List (List Pt) :=
  let segs := cellSegs mask width height
  let lookup := buildLookup segs
  let paths := (keyPaths mask width height).map (List.map (alGetPt lookup))
  let sorted := paths.mergeSort (fun a b => decide (b.length ≤ a.length))
  (sorted.filter (fun p => decide (minLength ≤ (p.length : ℚ)))).take maxContours

/-- marchingSquares (lines 393-512): the longest surviving path (the
source returns filtered[0] whether or not maxContours exceeds 1). -/
def marchingSquares (mask : List Bool) (width height maxContours : ℕ)
    (minLength : ℚ) : List Pt :=
  let segs := cellSegs mask width height
  let lookup := buildLookup segs
  let paths := (keyPaths mask width height).map (List.map (alGetPt lookup))
  if paths.isEmpty then []
  else
    let sorted := paths.mergeSort (fun a b => decide (b.length ≤ a.length))
    let filtered := sorted.filter (fun p => decide (minLength ≤ (p.length : ℚ)))
    if filtered.isEmpty then [] else filtered.head!

/-- The canonical edge ids traversed along a key path (one per
consecutive pair of vertices). -/
def pathEdges (p : List Key) : List (Key × Key) :=
  (p.zip p.tail).map (fun q => edgeKId q.1 q.2)

/-- The edge ids the walk marks visited while producing a path: for a
closed path (first vertex = last vertex) the closing edge is pushed
onto the path without being marked, so it is left out. -/
def markedEdges (p : List Key) : List (Key × Key) :=
  if 3 ≤ p.length ∧ p.head! = p.getLast! then (pathEdges p).dropLast
  else pathEdges p

theorem pathEdges_single (a : Key) : pathEdges [a] = [] := rfl

theorem pathEdges_cons_cons (a b : Key) (l : List Key) :
    pathEdges (a :: b :: l) = edgeKId a b :: pathEdges (b :: l) := rfl

theorem pathEdges_ne_nil (a : Key) (l : List Key) (h : l ≠ []) :
    pathEdges (a :: l) ≠ [] := by
  cases l with
  | nil => exact absurd rfl h
  | cons b t => rw [pathEdges_cons_cons]; exact List.cons_ne_nil _ _

theorem getLast!_singleton {A : Type} [Inhabited A] (a : A) :
    ([a] : List A).getLast! = a := getLast!_concat [] a

theorem getLast!_cons_of_ne_nil {A : Type} [Inhabited A] (a : A) (l : List A)
    (h : l ≠ []) : (a :: l).getLast! = l.getLast! := by
  cases l with
  | nil => exact absurd rfl h
  | cons b t => exact getLast!_cons_cons a b t

theorem walkLoop_succ_nil (adj : List (Key × List Key)) (start : Key) (fuel : ℕ)
    (path : List Key) (prev curr : Key) (visited : List (Key × Key))
    (h : alGet adj curr = []) :
    walkLoop adj start (fuel + 1) path prev curr visited = (path, visited) := by
  simp [walkLoop, h]

theorem walkLoop_succ_start (adj : List (Key × List Key)) (start : Key) (fuel : ℕ)
    (path : List Key) (prev curr : Key) (visited : List (Key × Key))
    (n : Key) (ns : List Key) (h : alGet adj curr = n :: ns)
    (hs : pickNext n ns prev = start) :
    walkLoop adj start (fuel + 1) path prev curr visited = (path ++ [start], visited) := by
  simp [walkLoop, h, hs]

theorem walkLoop_succ_visited (adj : List (Key × List Key)) (start : Key) (fuel : ℕ)
    (path : List Key) (prev curr : Key) (visited : List (Key × Key))
    (n : Key) (ns : List Key) (h : alGet adj curr = n :: ns)
    (hs : pickNext n ns prev ≠ start)
    (hv : edgeKId curr (pickNext n ns prev) ∈ visited) :
    walkLoop adj start (fuel + 1) path prev curr visited = (path, visited) := by
  simp [walkLoop, h, hs, hv]

theorem walkLoop_succ_step (adj : List (Key × List Key)) (start : Key) (fuel : ℕ)
    (path : List Key) (prev curr : Key) (visited : List (Key × Key))
    (n : Key) (ns : List Key) (h : alGet adj curr = n :: ns)
    (hs : pickNext n ns prev ≠ start)
    (hv : edgeKId curr (pickNext n ns prev) ∉ visited) :
    walkLoop adj start (fuel + 1) path prev curr visited =
      walkLoop adj start fuel (path ++ [pickNext n ns prev]) curr
        (pickNext n ns prev) (edgeKId curr (pickNext n ns prev) :: visited) := by
  simp [walkLoop, h, hs, hv]

/-- Invariant of the walking loop: the produced path extends the input
path by some suffix ext; the visited set grows by a duplicate-free
block ne of fresh edges; and ne is a permutation of the edges of
curr :: ext, minus the closing edge exactly when the walk closed the
loop (ext ends at start). -/
theorem walkLoop_inv (adj : List (Key × List Key)) (start : Key) :
    ∀ (fuel : ℕ) (path : List Key) (prev curr : Key) (visited : List (Key × Key)),
    ∃ (ext : List Key) (ne : List (Key × Key)),
      (walkLoop adj start fuel path prev curr visited).1 = path ++ ext ∧
      (walkLoop adj start fuel path prev curr visited).2 = ne ++ visited ∧
      ne.Nodup ∧ (∀ e ∈ ne, e ∉ visited) ∧
      ((ext ≠ [] ∧ ext.getLast! = start ∧ ne ~ (pathEdges (curr :: ext)).dropLast) ∨
        ((ext = [] ∨ ext.getLast! ≠ start) ∧ ne ~ pathEdges (curr :: ext))) := by
  intro fuel
  induction fuel with
  | zero =>
    intro path prev curr visited
    refine ⟨[], [], by simp [walkLoop], by simp [walkLoop], List.nodup_nil,
      by simp, Or.inr ⟨Or.inl rfl, by simp [pathEdges]⟩⟩
  | succ fuel ih =>
    intro path prev curr visited
    cases halg : alGet adj curr with
    | nil =>
      rw [walkLoop_succ_nil adj start fuel path prev curr visited halg]
      refine ⟨[], [], by simp, by simp, List.nodup_nil,
        by simp, Or.inr ⟨Or.inl rfl, by simp [pathEdges]⟩⟩
    | cons n ns =>
      by_cases hs : pickNext n ns prev = start
      · rw [walkLoop_succ_start adj start fuel path prev curr visited n ns halg hs]
        refine ⟨[start], [], by simp, by simp, List.nodup_nil, by simp,
          Or.inl ⟨by simp, getLast!_concat [] start, ?_⟩⟩
        rw [pathEdges_cons_cons]
        simp [pathEdges_single]
      · by_cases hv : edgeKId curr (pickNext n ns prev) ∈ visited
        · rw [walkLoop_succ_visited adj start fuel path prev curr visited n ns halg hs hv]
          refine ⟨[], [], by simp, by simp, List.nodup_nil,
            by simp, Or.inr ⟨Or.inl rfl, by simp [pathEdges]⟩⟩
        · rw [walkLoop_succ_step adj start fuel path prev curr visited n ns halg hs hv]
          obtain ⟨ext, ne, h1, h2, hnd, hfr, hdisj⟩ :=
            ih (path ++ [pickNext n ns prev]) curr (pickNext n ns prev)
              (edgeKId curr (pickNext n ns prev) :: visited)
          refine ⟨pickNext n ns prev :: ext,
            ne ++ [edgeKId curr (pickNext n ns prev)], ?_, ?_, ?_, ?_, ?_⟩
          · rw [h1]; simp
          · rw [h2]; simp
          · refine List.Nodup.append hnd (List.nodup_singleton _) ?_
            intro x hx hx2
            rw [List.mem_singleton] at hx2
            exact hfr x hx (by rw [hx2]; exact List.mem_cons_self _ _)
          · intro x hx
            rcases List.mem_append.mp hx with hx | hx
            · intro hxv
              exact hfr x hx (List.mem_cons_of_mem _ hxv)
            · rw [List.mem_singleton] at hx
              subst hx
              exact hv
          · rcases hdisj with ⟨hne, hlast, hperm⟩ | ⟨hor, hperm⟩
            · refine Or.inl ⟨by simp, ?_, ?_⟩
              · rw [getLast!_cons_of_ne_nil _ ext hne, hlast]
              · rw [pathEdges_cons_cons,
                  List.dropLast_cons_of_ne_nil (pathEdges_ne_nil _ ext hne)]
                exact (List.perm_append_singleton _ ne).trans (hperm.cons _)
            · by_cases hE : ext = []
              · subst hE
                rw [pathEdges_single] at hperm
                have hne0 : ne = [] := hperm.eq_nil
                subst hne0
                refine Or.inr ⟨Or.inr ?_, ?_⟩
                · rw [getLast!_singleton]
                  exact hs
                · rw [pathEdges_cons_cons, pathEdges_single]
                  simp
              · have hlast : ext.getLast! ≠ start := hor.resolve_left hE
                refine Or.inr ⟨Or.inr ?_, ?_⟩
                · rw [getLast!_cons_of_ne_nil _ ext hE]
                  exact hlast
                · rw [pathEdges_cons_cons]
                  exact (List.perm_append_singleton _ ne).trans (hperm.cons _)

theorem walkAll_cons (adj : List (Key × List Key)) (fuel : ℕ) (s : Seg)
    (rest : List Seg) (visited : List (Key × Key)) (paths : List (List Key)) :
    walkAll adj fuel (s :: rest) visited paths =
      if edgeKId s.k1 s.k2 ∈ visited then walkAll adj fuel rest visited paths
      else
        walkAll adj fuel rest
          (walkLoop adj s.k1 fuel [s.k1, s.k2] s.k1 s.k2
            (edgeKId s.k1 s.k2 :: visited)).2
          (paths ++ [(walkLoop adj s.k1 fuel [s.k1, s.k2] s.k1 s.k2
            (edgeKId s.k1 s.k2 :: visited)).1]) := rfl

/-- Invariant of the outer loop: if the marked edges of the paths
produced so far are pairwise distinct and all recorded in visited,
then the final path list still has pairwise distinct marked edges. -/
theorem walkAll_inv (adj : List (Key × List Key)) (fuel : ℕ) :
    ∀ (segs : List Seg) (visited : List (Key × Key)) (paths : List (List Key)),
    (paths.flatMap markedEdges).Nodup →
    (∀ e ∈ paths.flatMap markedEdges, e ∈ visited) →
    ((walkAll adj fuel segs visited paths).1.flatMap markedEdges).Nodup := by
  intro segs
  induction segs with
  | nil => intro visited paths hnd _; exact hnd
  | cons s rest ih =>
    intro visited paths hnd hmem
    rw [walkAll_cons]
    by_cases hv : edgeKId s.k1 s.k2 ∈ visited
    · rw [if_pos hv]
      exact ih visited paths hnd hmem
    · rw [if_neg hv]
      obtain ⟨ext, ne, h1, h2, hnde, hfr, hdisj⟩ :=
        walkLoop_inv adj s.k1 fuel [s.k1, s.k2] s.k1 s.k2
          (edgeKId s.k1 s.k2 :: visited)
      rw [h1, h2]
      have hcons : ([s.k1, s.k2] ++ ext) = s.k1 :: s.k2 :: ext := by simp
      rw [hcons]
      -- the marked edges of the new path are a permutation of
      -- edgeKId s.k1 s.k2 :: ne
      have hA : markedEdges (s.k1 :: s.k2 :: ext) ~ edgeKId s.k1 s.k2 :: ne := by
        rcases hdisj with ⟨hne, hlast, hperm⟩ | ⟨hor, hperm⟩
        · have hcond : 3 ≤ (s.k1 :: s.k2 :: ext).length ∧
              (s.k1 :: s.k2 :: ext).head! = (s.k1 :: s.k2 :: ext).getLast! := by
            constructor
            · simp
              cases ext with
              | nil => exact absurd rfl hne
              | cons a t => simp
            · rw [head!_cons, getLast!_cons_cons,
                getLast!_cons_of_ne_nil _ ext hne, hlast]
          rw [markedEdges, if_pos hcond, pathEdges_cons_cons,
            List.dropLast_cons_of_ne_nil (pathEdges_ne_nil _ ext hne)]
          exact (hperm.symm.cons _)
        · by_cases hE : ext = []
          · subst hE
            rw [pathEdges_single] at hperm
            have hne0 : ne = [] := hperm.eq_nil
            subst hne0
            have hcond : ¬ (3 ≤ ([s.k1, s.k2] : List Key).length ∧
                ([s.k1, s.k2] : List Key).head! = ([s.k1, s.k2] : List Key).getLast!) := by
              intro hc
              simp at hc
            rw [markedEdges, if_neg hcond, pathEdges_cons_cons, pathEdges_single]
          · have hlast : ext.getLast! ≠ s.k1 := hor.resolve_left hE
            have hcond : ¬ (3 ≤ (s.k1 :: s.k2 :: ext).length ∧
                (s.k1 :: s.k2 :: ext).head! = (s.k1 :: s.k2 :: ext).getLast!) := by
              intro hc
              apply hlast
              have := hc.2
              rw [head!_cons, getLast!_cons_cons,
                getLast!_cons_of_ne_nil _ ext hE] at this
              exact this.symm
            rw [markedEdges, if_neg hcond, pathEdges_cons_cons]
            exact (hperm.symm.cons _)
      have hEne : edgeKId s.k1 s.k2 ∉ ne := by
        intro hmem2
        exact hfr _ hmem2 (List.mem_cons_self _ _)
      have hndnew : (markedEdges (s.k1 :: s.k2 :: ext)).Nodup :=
        hA.nodup_iff.mpr (List.nodup_cons.mpr ⟨hEne, hnde⟩)
      apply ih
      · rw [List.flatMap_append]
        refine List.Nodup.append hnd (by simpa using hndnew) ?_
        intro x hxold hxnew
        have hxv : x ∈ visited := hmem x hxold
        simp only [List.flatMap_cons, List.flatMap_nil, List.append_nil] at hxnew
        rcases List.mem_cons.mp (hA.mem_iff.mp hxnew) with hxe | hxe
        · exact hv (hxe ▸ hxv)
        · exact hfr x hxe (List.mem_cons_of_mem _ hxv)
      · intro x hx
        rw [List.flatMap_append] at hx
        rcases List.mem_append.mp hx with hx | hx
        · exact List.mem_append_right _ (List.mem_cons_of_mem _ (hmem x hx))
        · simp only [List.flatMap_cons, List.flatMap_nil, List.append_nil] at hx
          rcases List.mem_cons.mp (hA.mem_iff.mp hx) with hxe | hxe
          · exact List.mem_append_right _ (hxe ▸ List.mem_cons_self _ _)
          · exact List.mem_append_left _ hxe

/-- C4 (amended): across one run of the walking phase, the edges the
walk marks visited are pairwise distinct - each adjacency edge is
marked at most once.  (The closing edge of a closed path is pushed
without being marked, which is exactly why the original claim fails.) -/
theorem C4_marked_edges_once (mask : List Bool) (width height : ℕ) :
    ((keyPaths mask width height).flatMap markedEdges).Nodup :=
  walkAll_inv (buildAdj (cellSegs mask width height))
    ((cellSegs mask width height).length + 1) (cellSegs mask width height) [] []
    List.nodup_nil (by intro e he; simp at he)

unseal Rat.add Rat.mul Rat.sub Rat.inv in
/-- C4 counterexample: on the 3x3 mask with only the center pixel set,
the walking phase produces a closed square path plus a second path that
re-walks the square's closing edge, so that edge is traversed twice
across the output paths - refuting the claim that each adjacency edge
is traversed at most once. -/
theorem C4_cex_closing_edge_rewalked :
    keyPaths [false, false, false, false, true, false, false, false, false] 3 3 =
      [[(1000, 500), (500, 1000), (1000, 1500), (1500, 1000), (1000, 500)],
        [(1500, 1000), (1000, 500)]] ∧
    ¬ ((keyPaths [false, false, false, false, true, false, false, false, false]
        3 3).flatMap pathEdges).Nodup := by
  constructor
  · decide
  · decide

/-! ### The Bezier fitter (bezier-fit module, Schneider's algorithm)

JS numbers are modelled as real numbers here because the fitter computes
Euclidean lengths (Math.hypot) whose exact values are irrational.  Float
literals of the source (1e-6, 0.03, 1.2, ...) are read at their decimal
value.  Recursion depth is modelled by the fuel 51 - depth, which is the
exact remaining-recursion budget of the source's depth counter: the base
guard depth > 50 is fuel = 0, and each recursive call at depth + 1 has
fuel one less. -/

/-- A point of the fitter ([number, number]). -/
abbrev RPt := ℝ × ℝ

def add (a b : RPt) : RPt := (a.1 + b.1, a.2 + b.2)

def sub (a b : RPt) : RPt := (a.1 - b.1, a.2 - b.2)

def mul (a : RPt) (s : ℝ) : RPt := (a.1 * s, a.2 * s)

def dot (a b : RPt) : ℝ := a.1 * b.1 + a.2 * b.2

/-- len: Math.hypot of the two components. -/
noncomputable def len (v : RPt) : ℝ := Real.sqrt (v.1 * v.1 + v.2 * v.2)

noncomputable def normalize (v : RPt) : RPt :=
  if len v = 0 then (0, 0) else (v.1 / len v, v.2 / len v)

/-- A cubic Bezier control polygon [p0, c1, c2, p3]. -/
structure BezierCtrl where
  p0 : RPt
  c1 : RPt
  c2 : RPt
  p3 : RPt

instance : Inhabited BezierCtrl := ⟨⟨(0, 0), (0, 0), (0, 0), (0, 0)⟩⟩

def bezierQ (c : BezierCtrl) (t : ℝ) : RPt :=
  let mt := 1 - t
  let mt2 := mt * mt
  let t2 := t * t
  let a := mt2 * mt
  let b := 3 * mt2 * t
  let cc := 3 * mt * t2
  let d := t2 * t
  (a * c.p0.1 + b * c.c1.1 + cc * c.c2.1 + d * c.p3.1,
    a * c.p0.2 + b * c.c1.2 + cc * c.c2.2 + d * c.p3.2)

def bezierQPrime (c : BezierCtrl) (t : ℝ) : RPt :=
  let mt := 1 - t
  let a := -3 * mt * mt
  let b := 3 * mt * mt - 6 * mt * t
  let cc := 6 * mt * t - 3 * t * t
  let d := 3 * t * t
  (a * c.p0.1 + b * c.c1.1 + cc * c.c2.1 + d * c.p3.1,
    a * c.p0.2 + b * c.c1.2 + cc * c.c2.2 + d * c.p3.2)

def bezierQPrime2 (c : BezierCtrl) (t : ℝ) : RPt :=
  let mt := 1 - t
  let a := 6 * mt
  let b := -12 * mt + 6 * t
  let cc := 6 * mt - 12 * t
  let d := 6 * t
  (a * c.p0.1 + b * c.c1.1 + cc * c.c2.1 + d * c.p3.1,
    a * c.p0.2 + b * c.c1.2 + cc * c.c2.2 + d * c.p3.2)

/-- The cumulative chord lengths u[1..] (u[i] = u[i-1] + |p_i - p_{i-1}|). -/
noncomputable def chordU : RPt → ℝ → List RPt → List ℝ
  | _, _, [] => []
  | prev, acc, p :: rest =>
    (acc + len (sub p prev)) :: chordU p (acc + len (sub p prev)) rest

/-- The raw u array of chordLengthParameterize before division: it always
starts with the element 0, even for an empty point list. -/
noncomputable def chordRaw (points : List RPt) : List ℝ :=
  match points with
  | [] => [0]
  | p :: rest => 0 :: chordU p 0 rest

noncomputable def chordLengthParameterize (points : List RPt) : List ℝ :=
  let u := chordRaw points
  let total := u.getLast!
  if total = 0 then u.map (fun _ => 0) else u.map (fun x => x / total)

noncomputable def newtonRaphsonRootFind (bezier : BezierCtrl) (point : RPt) (u : ℝ) : ℝ :=
  let q := bezierQ bezier u
  let q1 := bezierQPrime bezier u
  let q2 := bezierQPrime2 bezier u
  let numerator := dot (sub q point) q1
  let denominator := dot q1 q1 + dot (sub q point) q2
  if denominator = 0 then u else u - numerator / denominator

noncomputable def reparameterize (points : List RPt) (u : List ℝ) (bezier : BezierCtrl) :
    List ℝ :=
  (points.zip u).map (fun q => newtonRaphsonRootFind bezier q.1 q.2)

/-- One summand of generateBezier's accumulation loop, as
(c00, c01, c11, x0, x1).  c[1][0] receives the same value as c[0][1]. -/
def genAcc (leftTan rightTan p0 p3 : RPt) (st : ℝ × ℝ × ℝ × ℝ × ℝ) (q : ℝ × RPt) :
    ℝ × ℝ × ℝ × ℝ × ℝ :=
  let ui := q.1
  let b0 := (1 - ui) ^ 3
  let b1 := 3 * ui * (1 - ui) ^ 2
  let b2 := 3 * ui * ui * (1 - ui)
  let b3 := ui ^ 3
  let a1 := mul leftTan b1
  let a2 := mul rightTan b2
  let tmp := sub q.2 (add (mul p0 b0) (mul p3 b3))
  (st.1 + dot a1 a1, st.2.1 + dot a1 a2, st.2.2.1 + dot a2 a2,
    st.2.2.2.1 + dot a1 tmp, st.2.2.2.2 + dot a2 tmp)

/-- generateBezier.  Note the residual tmp subtracts only the b0 and b3
endpoint terms (the b1, b2 tangent terms of Schneider's X vector are
missing from the source). -/
noncomputable def generateBezier (points : List RPt) (u : List ℝ)
    (leftTan rightTan : RPt) : BezierCtrl :=
  let p0 := points.head!
  let p3 := points.getLast!
  let ac := (u.zip points).foldl (genAcc leftTan rightTan p0 p3) (0, 0, 0, 0, 0)
  let c00 := ac.1
  let c01 := ac.2.1
  let c11 := ac.2.2.1
  let x0 := ac.2.2.2.1
  let x1 := ac.2.2.2.2
  let detC0C1 := c00 * c11 - c01 * c01
  let alphaL := if 1 / 1000000 < |detC0C1| then (x0 * c11 - x1 * c01) / detC0C1 else 0
  let alphaR := if 1 / 1000000 < |detC0C1| then (c00 * x1 - c01 * x0) / detC0C1 else 0
  let segLength := len (sub p3 p0)
  let aL := if alphaL < 1 / 1000000 ∨ alphaR < 1 / 1000000 then segLength / 3 else alphaL
  let aR := if alphaL < 1 / 1000000 ∨ alphaR < 1 / 1000000 then segLength / 3 else alphaR
  ⟨p0, add p0 (mul leftTan aL), add p3 (mul rightTan aR), p3⟩

/-- The scan of computeMaxError: strict improvement, so the first
maximizer's index is kept. -/
noncomputable def cmeGo (bezier : BezierCtrl) : List (ℝ × RPt) → ℕ → ℝ × ℕ → ℝ × ℕ
  | [], _, st => st
  | q :: rest, i, st =>
    let d := len (sub (bezierQ bezier q.1) q.2)
    cmeGo bezier rest (i + 1) (if st.1 < d then (d, i) else st)

/-- computeMaxError: (max sampled distance, index of its first attainment;
split starts at floor(length / 2)). -/
noncomputable def computeMaxError (points : List RPt) (bezier : BezierCtrl)
    (u : List ℝ) : ℝ × ℕ :=
  cmeGo bezier (u.zip points) 0 (0, points.length / 2)

/-- The ≤ 5-iteration reparameterization loop of fitCubic: Sum.inl is the
accepted bezier (maxError < error), Sum.inr the state (u, bezier, split)
after the last iteration. -/
noncomputable def reparamLoop (points : List RPt) (leftTan rightTan : RPt) (error : ℝ) :
    ℕ → List ℝ → BezierCtrl → ℕ → BezierCtrl ⊕ (List ℝ × BezierCtrl × ℕ)
  | 0, u, bezier, split => Sum.inr (u, bezier, split)
  | k + 1, u, bezier, split =>
    let u2 := reparameterize points u bezier
    let bez2 := generateBezier points u2 leftTan rightTan
    let me := computeMaxError points bez2 u2
    if me.1 < error then Sum.inl bez2
    else reparamLoop points leftTan rightTan error k u2 bez2 me.2

/-- The base-case segment: control points one third of the endpoint
distance along each tangent. -/
noncomputable def baseSeg (points : List RPt) (leftTan rightTan : RPt) : BezierCtrl :=
  let dist := len (sub points.head! points.getLast!) / 3
  ⟨points.head!, add points.head! (mul leftTan dist),
    add points.getLast! (mul rightTan dist), points.getLast!⟩

/-- The post-loop split clamp: first split <= 0 becomes 1, then
split >= length - 1 becomes length - 2 (in this order). -/
def clampSplit (n split : ℕ) : ℕ :=
  let s1 := if split = 0 then 1 else split
  if n - 1 ≤ s1 then n - 2 else s1

/-- fitCubic with the remaining recursion budget as fuel (= 51 - depth):
fuel = 0 is the source's depth > 50 base case. -/
noncomputable def fitCubicAux : ℕ → List RPt → RPt → RPt → ℝ → List BezierCtrl
  | 0, points, leftTan, rightTan, _ => [baseSeg points leftTan rightTan]
  | fuel + 1, points, leftTan, rightTan, error =>
    if points.length = 2 then [baseSeg points leftTan rightTan]
    else
      let u := chordLengthParameterize points
      let bezier := generateBezier points u leftTan rightTan
      let me := computeMaxError points bezier u
      if me.1 < error then [bezier]
      else
        match (if me.1 < error * error then
            reparamLoop points leftTan rightTan error 5 u bezier me.2
          else Sum.inr (u, bezier, me.2)) with
        | Sum.inl b => [b]
        | Sum.inr r =>
          let split := clampSplit points.length r.2.2
          let centerTan := normalize (sub points[split - 1]! points[split + 1]!)
          fitCubicAux fuel (points.take (split + 1)) leftTan centerTan error ++
            fitCubicAux fuel (points.drop split) (mul centerTan (-1)) rightTan error

noncomputable def fitCubic (points : List RPt) (leftTan rightTan : RPt) (error : ℝ)
    (depth : ℕ) : List BezierCtrl :=
  fitCubicAux (51 - depth) points leftTan rightTan error

noncomputable def fitCurve (points : List RPt) (error : ℝ) : List BezierCtrl :=
  if points.length < 2 then []
  else
    let leftTan := normalize (sub points[1]! points[0]!)
    let rightTan := normalize (sub points[points.length - 2]! points[points.length - 1]!)
    fitCubic points leftTan rightTan error 0

/-! Instrumented copy of the fitter: identical control flow, but each
produced segment carries its source sub-polyline, the parameter vector at
which it was accepted, and whether it came from a base case (2 points or
exhausted depth budget).  The erasure lemma below shows the seg
projection recovers fitCubicAux exactly. -/

structure FitAnn where
  src : List RPt
  uAcc : List ℝ
  fromBase : Bool
  seg : BezierCtrl

noncomputable def reparamLoopA (points : List RPt) (leftTan rightTan : RPt) (error : ℝ) :
    ℕ → List ℝ → BezierCtrl → ℕ → (List ℝ × BezierCtrl) ⊕ (List ℝ × BezierCtrl × ℕ)
  | 0, u, bezier, split => Sum.inr (u, bezier, split)
  | k + 1, u, bezier, split =>
    let u2 := reparameterize points u bezier
    let bez2 := generateBezier points u2 leftTan rightTan
    let me := computeMaxError points bez2 u2
    if me.1 < error then Sum.inl (u2, bez2)
    else reparamLoopA points leftTan rightTan error k u2 bez2 me.2

noncomputable def fitCubicAuxA : ℕ → List RPt → RPt → RPt → ℝ → List FitAnn
  | 0, points, leftTan, rightTan, _ => [⟨points, [], true, baseSeg points leftTan rightTan⟩]
  | fuel + 1, points, leftTan, rightTan, error =>
    if points.length = 2 then [⟨points, [], true, baseSeg points leftTan rightTan⟩]
    else
      let u := chordLengthParameterize points
      let bezier := generateBezier points u leftTan rightTan
      let me := computeMaxError points bezier u
      if me.1 < error then [⟨points, u, false, bezier⟩]
      else
        match (if me.1 < error * error then
            reparamLoopA points leftTan rightTan error 5 u bezier me.2
          else Sum.inr (u, bezier, me.2)) with
        | Sum.inl b => [⟨points, b.1, false, b.2⟩]
        | Sum.inr r =>
          let split := clampSplit points.length r.2.2
          let centerTan := normalize (sub points[split - 1]! points[split + 1]!)
          fitCubicAuxA fuel (points.take (split + 1)) leftTan centerTan error ++
            fitCubicAuxA fuel (points.drop split) (mul centerTan (-1)) rightTan error

noncomputable def fitCurveA (points : List RPt) (error : ℝ) : List FitAnn :=
  if points.length < 2 then []
  else
    let leftTan := normalize (sub points[1]! points[0]!)
    let rightTan := normalize (sub points[points.length - 2]! points[points.length - 1]!)
    fitCubicAuxA 51 points leftTan rightTan error

/-! ### Hysteresis thresholding (contour module lines 307-349) -/

/-- The maximum-magnitude fold (strict improvement from 0). -/
def maxMagOf (nms : List ℚ) : ℚ := nms.foldl (fun m v => if m < v then v else m) 0

/-- The double-threshold marking loop over nms indices.  strong is the
Uint8Array (writes at indices past its length are dropped, as List.set
drops them, but the queue push still happens). -/
def hystMark (hi lo : ℚ) : List ℚ → ℕ → List ℕ × List ℕ → List ℕ × List ℕ
  | [], _, st => st
  | v :: rest, i, st =>
    if hi ≤ v then hystMark hi lo rest (i + 1) (st.1.set i 2, st.2 ++ [i])
    else if lo ≤ v then hystMark hi lo rest (i + 1) (st.1.set i 1, st.2)
    else hystMark hi lo rest (i + 1) st

/-- The 8 neighbor offsets in source order (dy outer -1..1, dx inner,
(0,0) skipped). -/
def nbrOffsets : List (ℤ × ℤ) :=
  [(-1, -1), (0, -1), (1, -1), (-1, 0), (1, 0), (-1, 1), (0, 1), (1, 1)]

/-- Visiting one neighbor: out of bounds is skipped; a weak pixel (1) is
promoted to strong (2) and pushed. -/
def hystVisit (w h : ℕ) (st : List ℕ × List ℕ) (x y : ℤ) : List ℕ × List ℕ :=
  if x < 0 ∨ (w : ℤ) ≤ x ∨ y < 0 ∨ (h : ℤ) ≤ y then st
  else
    let ni := (y * w + x).toNat
    if st.1.getD ni 0 = 1 then (st.1.set ni 2, st.2 ++ [ni]) else st

/-- One while-loop iteration: pop the stack (queue.pop takes the LAST
element) and scan the popped pixel's 8 neighbors. -/
def hystStep (w h : ℕ) (strong queue : List ℕ) : List ℕ × List ℕ :=
  let idx := queue.getLast!
  let q0 := queue.dropLast
  let x := idx % w
  let y := idx / w
  nbrOffsets.foldl (fun st o => hystVisit w h st ((x : ℤ) + o.1) ((y : ℤ) + o.2)) (strong, q0)

/-- The BFS loop with fuel.  Each pop consumes one queue entry and each
push promotes a weak pixel permanently, so strong.length + queue.length
fuel runs the loop to emptiness. -/
def hystBFS (w h : ℕ) : ℕ → List ℕ → List ℕ → List ℕ
  | 0, strong, _ => strong
  | fuel + 1, strong, queue =>
    if queue.isEmpty then strong
    else
      let r := hystStep w h strong queue
      hystBFS w h fuel r.1 r.2

/-- hysteresis (lines 307-349). -/
def hysteresis (nms : List ℚ) (w h : ℕ) (low high : ℚ) : List Bool :=
  let maxMag := maxMagOf nms
  let highThresh := maxMag * high
  let lowThresh := maxMag * low
  let marked := hystMark highThresh lowThresh nms 0 (List.replicate (w * h) 0, [])
  let strong := hystBFS w h (w * h + marked.2.length) marked.1 marked.2
  strong.map (fun v => decide (v = 2))

/-! ### The edge-tracing orchestrator after Canny (traceEdges lines
392-424 and fitContour lines 427-437).  The contour points and the
tolerances live in ℚ through rdp and are injected into ℝ for the fitter
(in the source they are the same JS numbers throughout). -/

noncomputable def fitContour (contour : List Pt) (scale errorTolerance : ℚ) :
    List BezierCtrl :=
  let scaled := contour.map (fun p => (p.1 * scale, p.2 * scale))
  let simplified := rdp scaled (errorTolerance * (1 / 2))
  if simplified.length < 2 then []
  else
    let fitted := fitCurve (simplified.map (fun p => ((p.1 : ℝ), (p.2 : ℝ))))
      (errorTolerance : ℝ)
    if fitted.isEmpty then [] else fitted

/-- traceEdges after its cannyEdgeDetection call: everything the
orchestrator does with the edge mask. -/
noncomputable def traceEdgesFrom (edgeMask : List Bool) (traceRes : ℕ)
    (scale errorTolerance : ℚ) : List (List BezierCtrl) :=
  let edgeCount := (edgeMask.filter id).length
  if edgeCount = 0 then []
  else
    let maxContours := (min 30 (max 5 (jsRound ((edgeCount : ℚ) / ((traceRes : ℚ) * 2))))).toNat
    let minLen := max 15 ((traceRes : ℚ) * (3 / 100))
    let contours := marchingSquaresMulti edgeMask traceRes traceRes maxContours minLen
    let photoTolerance := max errorTolerance (errorTolerance * (6 / 5))
    (contours.map (fun c => fitContour c scale photoTolerance)).filter
      (fun s => !s.isEmpty)

/-! ### C2: the chaining invariant of the fitter -/

theorem generateBezier_p0 (points : List RPt) (u : List ℝ) (lt rt : RPt) :
    (generateBezier points u lt rt).p0 = points.head! := rfl

theorem generateBezier_p3 (points : List RPt) (u : List ℝ) (lt rt : RPt) :
    (generateBezier points u lt rt).p3 = points.getLast! := rfl

theorem baseSeg_p0 (points : List RPt) (lt rt : RPt) :
    (baseSeg points lt rt).p0 = points.head! := rfl

theorem baseSeg_p3 (points : List RPt) (lt rt : RPt) :
    (baseSeg points lt rt).p3 = points.getLast! := rfl

/-- An accepted bezier of the reparameterization loop is a generateBezier
output for the accepting parameter vector, with its error below the
tolerance. -/
theorem reparamLoop_inl (points : List RPt) (lt rt : RPt) (error : ℝ) :
    ∀ (k : ℕ) (u : List ℝ) (bez : BezierCtrl) (split : ℕ) (b : BezierCtrl),
    reparamLoop points lt rt error k u bez split = Sum.inl b →
    ∃ u2, b = generateBezier points u2 lt rt ∧ (computeMaxError points b u2).1 < error := by
  intro k
  induction k with
  | zero =>
    intro u bez split b h
    simp [reparamLoop] at h
  | succ k ih =>
    intro u bez split b h
    simp only [reparamLoop] at h
    split_ifs at h with hc
    · simp only [Sum.inl.injEq] at h
      exact ⟨reparameterize points u bez, h.symm, h ▸ hc⟩
    · exact ih _ _ _ b h

theorem fitCubicAux_succ_base (fuel : ℕ) (points : List RPt) (lt rt : RPt) (error : ℝ)
    (h2 : points.length = 2) :
    fitCubicAux (fuel + 1) points lt rt error = [baseSeg points lt rt] := by
  simp only [fitCubicAux, if_pos h2]

theorem fitCubicAux_succ_acc (fuel : ℕ) (points : List RPt) (lt rt : RPt) (error : ℝ)
    (h2 : ¬ points.length = 2) (u : List ℝ) (bez : BezierCtrl) (me : ℝ × ℕ)
    (hu : u = chordLengthParameterize points) (hbez : bez = generateBezier points u lt rt)
    (hme : me = computeMaxError points bez u) (hacc : me.1 < error) :
    fitCubicAux (fuel + 1) points lt rt error = [bez] := by
  subst hu; subst hbez; subst hme
  simp only [fitCubicAux, if_neg h2, if_pos hacc]

theorem fitCubicAux_succ_inl (fuel : ℕ) (points : List RPt) (lt rt : RPt) (error : ℝ)
    (h2 : ¬ points.length = 2) (u : List ℝ) (bez : BezierCtrl) (me : ℝ × ℕ)
    (hu : u = chordLengthParameterize points) (hbez : bez = generateBezier points u lt rt)
    (hme : me = computeMaxError points bez u) (hacc : ¬ me.1 < error) (b : BezierCtrl)
    (hm : (if me.1 < error * error then reparamLoop points lt rt error 5 u bez me.2
        else Sum.inr (u, bez, me.2)) = Sum.inl b) :
    fitCubicAux (fuel + 1) points lt rt error = [b] := by
  subst hu; subst hbez; subst hme
  simp only [fitCubicAux, if_neg h2, if_neg hacc, hm]

theorem fitCubicAux_succ_split (fuel : ℕ) (points : List RPt) (lt rt : RPt) (error : ℝ)
    (h2 : ¬ points.length = 2) (u : List ℝ) (bez : BezierCtrl) (me : ℝ × ℕ)
    (hu : u = chordLengthParameterize points) (hbez : bez = generateBezier points u lt rt)
    (hme : me = computeMaxError points bez u) (hacc : ¬ me.1 < error)
    (r : List ℝ × BezierCtrl × ℕ)
    (hm : (if me.1 < error * error then reparamLoop points lt rt error 5 u bez me.2
        else Sum.inr (u, bez, me.2)) = Sum.inr r) :
    fitCubicAux (fuel + 1) points lt rt error =
      fitCubicAux fuel (points.take (clampSplit points.length r.2.2 + 1)) lt
        (normalize (sub points[clampSplit points.length r.2.2 - 1]!
          points[clampSplit points.length r.2.2 + 1]!)) error ++
      fitCubicAux fuel (points.drop (clampSplit points.length r.2.2))
        (mul (normalize (sub points[clampSplit points.length r.2.2 - 1]!
          points[clampSplit points.length r.2.2 + 1]!)) (-1)) rt error := by
  subst hu; subst hbez; subst hme
  simp only [fitCubicAux, if_neg h2, if_neg hacc, hm]

theorem head!_take_any {A : Type} [Inhabited A] (pts : List A) (n : ℕ) (hn : 1 ≤ n) :
    (pts.take n).head! = pts.head! := by
  cases pts with
  | nil => simp
  | cons a t =>
    cases n with
    | zero => exact absurd hn (by omega)
    | succ n => simp [List.take_succ_cons, head!_cons]

theorem head!_eq_head {A : Type} [Inhabited A] (l : List A) (h : l ≠ []) :
    l.head! = l.head h := by
  cases l with
  | nil => exact absurd rfl h
  | cons a t => rfl

/-- The last point of the left slice is the first point of the right
slice (the shared split point). -/
theorem glue_take_drop {A : Type} [Inhabited A] (pts : List A) (s : ℕ)
    (h : s < pts.length ∨ s = 0) :
    (pts.take (s + 1)).getLast! = (pts.drop s).head! := by
  by_cases hlt : s < pts.length
  · rw [List.take_succ, List.getElem?_eq_getElem hlt]
    simp only [Option.toList_some]
    rw [getLast!_concat, List.drop_eq_getElem_cons hlt, head!_cons]
  · have hs : s = 0 := h.resolve_left hlt
    subst hs
    cases pts with
    | nil => simp
    | cons a t =>
      simp only [List.drop_zero]
      rw [List.take_succ_cons, List.take_zero, getLast!_singleton, head!_cons]

theorem clampSplit_lt_or_zero (n s : ℕ) : clampSplit n s < n ∨ clampSplit n s = 0 := by
  simp only [clampSplit]
  split <;> split <;> omega

/-- The structural invariant of fitCubic: the output is nonempty, starts
at the first input point, ends at the last input point, and consecutive
segments chain (p3 = next p0). -/
theorem fitCubicAux_chain : ∀ (fuel : ℕ) (points : List RPt) (lt rt : RPt) (error : ℝ),
    fitCubicAux fuel points lt rt error ≠ [] ∧
    (fitCubicAux fuel points lt rt error).head!.p0 = points.head! ∧
    (fitCubicAux fuel points lt rt error).getLast!.p3 = points.getLast! ∧
    List.Chain' (fun s t => s.p3 = t.p0) (fitCubicAux fuel points lt rt error) := by
  intro fuel
  induction fuel with
  | zero =>
    intro points lt rt error
    simp only [fitCubicAux]
    exact ⟨by simp, by rw [head!_cons, baseSeg_p0], by rw [getLast!_singleton, baseSeg_p3],
      List.chain'_singleton _⟩
  | succ fuel ih =>
    intro points lt rt error
    by_cases h2 : points.length = 2
    · rw [fitCubicAux_succ_base fuel points lt rt error h2]
      exact ⟨by simp, by rw [head!_cons, baseSeg_p0], by rw [getLast!_singleton, baseSeg_p3],
        List.chain'_singleton _⟩
    · set u0 := chordLengthParameterize points with hu0
      set bez0 := generateBezier points u0 lt rt with hbez0
      set me0 := computeMaxError points bez0 u0 with hme0
      by_cases hacc : me0.1 < error
      · rw [fitCubicAux_succ_acc fuel points lt rt error h2 u0 bez0 me0 hu0 hbez0 hme0 hacc]
        refine ⟨by simp, ?_, ?_, List.chain'_singleton _⟩
        · rw [head!_cons, hbez0, generateBezier_p0]
        · rw [getLast!_singleton, hbez0, generateBezier_p3]
      · cases hm : (if me0.1 < error * error then reparamLoop points lt rt error 5 u0 bez0 me0.2
            else Sum.inr (u0, bez0, me0.2)) with
        | inl b =>
          rw [fitCubicAux_succ_inl fuel points lt rt error h2 u0 bez0 me0 hu0 hbez0 hme0 hacc b hm]
          have hb : b.p0 = points.head! ∧ b.p3 = points.getLast! := by
            by_cases hc2 : me0.1 < error * error
            · rw [if_pos hc2] at hm
              obtain ⟨u2, hbe, _⟩ := reparamLoop_inl points lt rt error 5 u0 bez0 me0.2 b hm
              rw [hbe]
              exact ⟨generateBezier_p0 points u2 lt rt, generateBezier_p3 points u2 lt rt⟩
            · rw [if_neg hc2] at hm
              exact absurd hm (by simp)
          refine ⟨by simp, ?_, ?_, List.chain'_singleton _⟩
          · rw [head!_cons]; exact hb.1
          · rw [getLast!_singleton]; exact hb.2
        | inr r =>
          rw [fitCubicAux_succ_split fuel points lt rt error h2 u0 bez0 me0 hu0 hbez0 hme0 hacc r hm]
          obtain ⟨hA0, hA1, hA2, hA3⟩ := ih (points.take (clampSplit points.length r.2.2 + 1)) lt
            (normalize (sub points[clampSplit points.length r.2.2 - 1]!
              points[clampSplit points.length r.2.2 + 1]!)) error
          obtain ⟨hB0, hB1, hB2, hB3⟩ := ih (points.drop (clampSplit points.length r.2.2))
            (mul (normalize (sub points[clampSplit points.length r.2.2 - 1]!
              points[clampSplit points.length r.2.2 + 1]!)) (-1)) rt error
          have hso : clampSplit points.length r.2.2 < points.length ∨
              clampSplit points.length r.2.2 = 0 := clampSplit_lt_or_zero points.length r.2.2
          refine ⟨?_, ?_, ?_, ?_⟩
          · intro hc
            exact hA0 (List.append_eq_nil.mp hc).1
          · rw [head!_append _ _ hA0, hA1,
              head!_take_any points (clampSplit points.length r.2.2 + 1) (by omega)]
          · rw [getLast!_append _ _ hB0, hB2]
            rcases hso with hlt | h0
            · exact getLast!_drop points (clampSplit points.length r.2.2) hlt
            · rw [h0, List.drop_zero]
          · refine List.Chain'.append hA3 hB3 ?_
            intro x hx y hy
            rw [List.getLast?_eq_getLast _ hA0] at hx
            rw [List.head?_eq_head hB0] at hy
            simp only [Option.mem_def, Option.some.injEq] at hx hy
            have hx2 : x.p3 = (points.take (clampSplit points.length r.2.2 + 1)).getLast! := by
              rw [← hx, ← getLast!_eq_getLast _ hA0]
              exact hA2
            have hy2 : y.p0 = (points.drop (clampSplit points.length r.2.2)).head! := by
              rw [← hy, ← head!_eq_head _ hB0]
              exact hB1
            rw [hx2, hy2, glue_take_drop points (clampSplit points.length r.2.2) hso]

/-- C2: for every polyline of at least 2 points and every tolerance, the
segments returned by fitCurve chain - segment i's p3 equals segment
i+1's p0 for every consecutive pair. -/
theorem C2_fitCurve_chained (points : List RPt) (error : ℝ) (h2 : 2 ≤ points.length) :
    List.Chain' (fun s t => s.p3 = t.p0) (fitCurve points error) := by
  simp only [fitCurve, fitCubic, if_neg (by omega : ¬ points.length < 2)]
  exact (fitCubicAux_chain (51 - 0) points _ _ error).2.2.2

/-- C2 witness: a concrete 2-point polyline. -/
theorem C2_witness :
    2 ≤ ([((0 : ℝ), 0), (1, 0)] : List RPt).length ∧
    List.Chain' (fun s t => s.p3 = t.p0) (fitCurve [((0 : ℝ), 0), (1, 0)] 4) :=
  ⟨by norm_num, C2_fitCurve_chained [((0 : ℝ), 0), (1, 0)] 4 (by norm_num)⟩

/-! ### C8: termination / totality of the fitter, C9: degenerate inputs -/

theorem fitCurve_short (points : List RPt) (error : ℝ) (h : points.length < 2) :
    fitCurve points error = [] := by
  simp only [fitCurve, if_pos h]

/-- C8: the fitter is total.  In this embedding the recursion of
fitCubic runs on the remaining depth budget 51 - depth as fuel, which
the source's guard (depth > 50) makes a strictly decreasing measure, so
every call reaches a base case and returns a (nonempty) segment list;
fitCurve therefore returns a value on every input. -/
theorem C8_fitter_terminates (points : List RPt) (error : ℝ) :
    (∀ (lt rt : RPt) (depth : ℕ), fitCubic points lt rt error depth ≠ []) ∧
    (points.length < 2 → fitCurve points error = []) ∧
    (2 ≤ points.length → fitCurve points error ≠ []) := by
  refine ⟨?_, fitCurve_short points error, ?_⟩
  · intro lt rt depth
    exact (fitCubicAux_chain (51 - depth) points lt rt error).1
  · intro h2
    simp only [fitCurve, fitCubic, if_neg (by omega : ¬ points.length < 2)]
    exact (fitCubicAux_chain (51 - 0) points _ _ error).1

theorem C8_witness :
    fitCurve [((0 : ℝ), 0)] 4 = [] ∧ fitCurve [((0 : ℝ), 0), (1, 0)] 4 ≠ [] :=
  ⟨(C8_fitter_terminates [((0 : ℝ), 0)] 4).2.1 (by norm_num),
    (C8_fitter_terminates [((0 : ℝ), 0), (1, 0)] 4).2.2 (by norm_num)⟩

theorem isOn_false (mask : List Bool) (width : ℕ) (hm : ∀ b ∈ mask, b = false)
    (x y : ℕ) : isOn mask width x y = false := by
  simp only [isOn, List.getD_eq_getElem?_getD]
  cases hx : mask[y * width + x]? with
  | none => rfl
  | some b => exact hm b (List.getElem?_mem hx)

theorem segsOfCell_all_false (mask : List Bool) (width : ℕ)
    (hm : ∀ b ∈ mask, b = false) (x y : ℕ) : segsOfCell mask width x y = [] := by
  simp [segsOfCell, isOn_false mask width hm]

theorem cellSegs_all_false (mask : List Bool) (w h : ℕ)
    (hm : ∀ b ∈ mask, b = false) : cellSegs mask w h = [] := by
  simp [cellSegs, segsOfCell_all_false mask w hm]

theorem keyPaths_all_false (mask : List Bool) (w h : ℕ)
    (hm : ∀ b ∈ mask, b = false) : keyPaths mask w h = [] := by
  simp only [keyPaths, cellSegs_all_false mask w h hm]
  rfl

theorem marchingSquares_all_false (mask : List Bool) (w h maxContours : ℕ)
    (minLength : ℚ) (hm : ∀ b ∈ mask, b = false) :
    marchingSquares mask w h maxContours minLength = [] := by
  simp [marchingSquares, keyPaths_all_false mask w h hm]

theorem rdp_single (p : Pt) (eps : ℚ) : rdp [p] eps = [p] := by
  rw [rdp_eq]
  simp

/-- C9: degenerate inputs return empty or unchanged results -
marchingSquares of an all-background mask is [], fitCurve of fewer than
2 points is [], and rdp of a single point returns it unchanged. -/
theorem C9_degenerate_inputs :
    (∀ (mask : List Bool) (w h maxContours : ℕ) (minLength : ℚ),
      (∀ b ∈ mask, b = false) → marchingSquares mask w h maxContours minLength = []) ∧
    (∀ (points : List RPt) (error : ℝ), points.length < 2 → fitCurve points error = []) ∧
    (∀ (p : Pt) (eps : ℚ), rdp [p] eps = [p]) :=
  ⟨fun mask w h mc ml hm => marchingSquares_all_false mask w h mc ml hm,
    fun points error h => fitCurve_short points error h,
    fun p eps => rdp_single p eps⟩

theorem C9_witness :
    marchingSquares [false] 1 1 1 0 = [] ∧ fitCurve ([] : List RPt) 4 = [] ∧
    rdp [((0 : ℚ), 0)] 1 = [((0 : ℚ), 0)] :=
  ⟨C9_degenerate_inputs.1 [false] 1 1 1 0 (by simp),
    C9_degenerate_inputs.2.1 [] 4 (by simp),
    C9_degenerate_inputs.2.2 ((0 : ℚ), 0) 1⟩

/-! ### C1: hysteresis on an all-zero NMS field -/

theorem maxMagOf_zeros : ∀ (nms : List ℚ), (∀ v ∈ nms, v = 0) → maxMagOf nms = 0 := by
  intro nms
  induction nms with
  | nil => intro _; rfl
  | cons v rest ih =>
    intro h
    have hv : v = 0 := h v (List.mem_cons_self _ _)
    simp only [maxMagOf, List.foldl_cons, hv, lt_self_iff_false, if_false]
    exact ih (fun x hx => h x (List.mem_cons_of_mem _ hx))

/-- Setting positions i .. i+k-1 of a list to 2, in order (the effect of
the marking loop on an all-strong input). -/
def setTwos : List ℕ → ℕ → ℕ → List ℕ
  | s, _, 0 => s
  | s, i, k + 1 => setTwos (s.set i 2) (i + 1) k

theorem hystMark_zeros : ∀ (zs : List ℚ), (∀ v ∈ zs, v = 0) →
    ∀ (i : ℕ) (strong q : List ℕ),
    hystMark 0 0 zs i (strong, q) =
      (setTwos strong i zs.length, q ++ List.range' i zs.length) := by
  intro zs
  induction zs with
  | nil => intro _ i strong q; simp [hystMark, setTwos]
  | cons v rest ih =>
    intro h i strong q
    have hv : v = 0 := h v (List.mem_cons_self _ _)
    rw [hystMark, if_pos (by rw [hv])]
    rw [ih (fun x hx => h x (List.mem_cons_of_mem _ hx)) (i + 1) (strong.set i 2) (q ++ [i])]
    simp only [List.length_cons, setTwos, List.range'_succ, List.append_assoc,
      List.singleton_append]

theorem setTwos_replicate : ∀ (k : ℕ) (pre : List ℕ),
    setTwos (pre ++ List.replicate k 0) pre.length k = pre ++ List.replicate k 2 := by
  intro k
  induction k with
  | zero => intro pre; simp [setTwos]
  | succ k ih =>
    intro pre
    rw [setTwos]
    have hset : (pre ++ List.replicate (k + 1) 0).set pre.length 2 =
        (pre ++ [2]) ++ List.replicate k 0 := by
      rw [List.replicate_succ,
        List.set_append_right pre.length 2 (le_refl pre.length)]
      simp
    rw [hset]
    have hlen : (pre ++ [2]).length = pre.length + 1 := by simp
    calc setTwos ((pre ++ [2]) ++ List.replicate k 0) (pre.length + 1) k
        = setTwos ((pre ++ [2]) ++ List.replicate k 0) (pre ++ [2]).length k := by rw [hlen]
      _ = (pre ++ [2]) ++ List.replicate k 2 := ih (pre ++ [2])
      _ = pre ++ List.replicate (k + 1) 2 := by
          rw [List.replicate_succ]
          simp

theorem getD_ne_one (strong : List ℕ) (hs : ∀ v ∈ strong, v ≠ 1) (ni : ℕ) :
    strong.getD ni 0 ≠ 1 := by
  rw [List.getD_eq_getElem?_getD]
  cases hx : strong[ni]? with
  | none => simp
  | some b => simpa using hs b (List.getElem?_mem hx)

theorem hystVisit_no_weak (w h : ℕ) (strong : List ℕ) (hs : ∀ v ∈ strong, v ≠ 1)
    (q : List ℕ) (x y : ℤ) : hystVisit w h (strong, q) x y = (strong, q) := by
  simp only [hystVisit]
  split
  · rfl
  · rw [if_neg (getD_ne_one strong hs _)]

theorem foldl_hystVisit_no_weak (w h : ℕ) (strong : List ℕ)
    (hs : ∀ v ∈ strong, v ≠ 1) :
    ∀ (os : List (ℤ × ℤ)) (q : List ℕ) (x y : ℤ),
    os.foldl (fun st o => hystVisit w h st (x + o.1) (y + o.2)) (strong, q) = (strong, q) := by
  intro os
  induction os with
  | nil => intro q x y; rfl
  | cons o rest ih =>
    intro q x y
    rw [List.foldl_cons, hystVisit_no_weak w h strong hs q _ _]
    exact ih q x y

/-- If no pixel is weak (1), the BFS never changes the strong map. -/
theorem hystBFS_no_weak (w h : ℕ) : ∀ (fuel : ℕ) (strong queue : List ℕ),
    (∀ v ∈ strong, v ≠ 1) → hystBFS w h fuel strong queue = strong := by
  intro fuel
  induction fuel with
  | zero => intro strong queue _; rfl
  | succ fuel ih =>
    intro strong queue hs
    rw [hystBFS]
    split
    · rfl
    · simp only [hystStep]
      rw [foldl_hystVisit_no_weak w h strong hs nbrOffsets queue.dropLast _ _]
      exact ih strong queue.dropLast hs

/-- An all-zero NMS field makes maxMag 0, hence both thresholds 0, hence
every pixel strong: the returned mask is all-true, not all-false. -/
theorem hysteresis_zeros (nms : List ℚ) (w h : ℕ) (low high : ℚ)
    (hz : ∀ v ∈ nms, v = 0) (hlen : nms.length = w * h) :
    hysteresis nms w h low high = List.replicate (w * h) true := by
  simp only [hysteresis]
  rw [maxMagOf_zeros nms hz, zero_mul, zero_mul,
    hystMark_zeros nms hz 0 (List.replicate (w * h) 0) []]
  have hstrong : setTwos (List.replicate (w * h) 0) 0 nms.length =
      List.replicate (w * h) 2 := by
    rw [hlen]
    simpa using setTwos_replicate (w * h) []
  simp only [hstrong]
  rw [hystBFS_no_weak w h _ _ _ (by intro v hv; rw [List.eq_of_mem_replicate hv]; omega)]
  simp [List.map_replicate]

theorem isOn_true (mask : List Bool) (res : ℕ) (hlen : mask.length = res * res)
    (hm : ∀ b ∈ mask, b = true) (x y : ℕ) (hx : x < res) (hy : y < res) :
    isOn mask res x y = true := by
  simp only [isOn, List.getD_eq_getElem?_getD]
  have hidx : y * res + x < mask.length := by
    rw [hlen]
    calc y * res + x < y * res + res := by omega
      _ = (y + 1) * res := by ring
      _ ≤ res * res := Nat.mul_le_mul_right res (by omega)
  rw [List.getElem?_eq_getElem hidx]
  simpa using hm _ (List.getElem_mem _)

theorem segsOfCell_all_true (mask : List Bool) (res : ℕ) (hlen : mask.length = res * res)
    (hm : ∀ b ∈ mask, b = true) (x y : ℕ) (hx : x + 1 < res) (hy : y + 1 < res) :
    segsOfCell mask res x y = [] := by
  simp [segsOfCell, isOn_true mask res hlen hm x y (by omega) (by omega),
    isOn_true mask res hlen hm (x + 1) y (by omega) (by omega),
    isOn_true mask res hlen hm (x + 1) (y + 1) (by omega) (by omega),
    isOn_true mask res hlen hm x (y + 1) (by omega) (by omega)]

theorem cellSegs_all_true (mask : List Bool) (res : ℕ) (hlen : mask.length = res * res)
    (hm : ∀ b ∈ mask, b = true) : cellSegs mask res res = [] := by
  simp only [cellSegs]
  rw [List.flatMap_eq_nil_iff]
  intro y hy
  rw [List.flatMap_eq_nil_iff]
  intro x hx
  exact segsOfCell_all_true mask res hlen hm x y
    (by have := List.mem_range.mp hx; omega) (by have := List.mem_range.mp hy; omega)

theorem msm_all_true (mask : List Bool) (res maxContours : ℕ) (minLength : ℚ)
    (hlen : mask.length = res * res) (hm : ∀ b ∈ mask, b = true) :
    marchingSquaresMulti mask res res maxContours minLength = [] := by
  simp only [marchingSquaresMulti, keyPaths, cellSegs_all_true mask res hlen hm]
  simp [walkAll]

theorem traceEdgesFrom_all_true (res : ℕ) (scale tol : ℚ) :
    traceEdgesFrom (List.replicate (res * res) true) res scale tol = [] := by
  simp only [traceEdgesFrom]
  by_cases h0 : ((List.replicate (res * res) true).filter id).length = 0
  · rw [if_pos h0]
  · rw [if_neg h0]
    rw [msm_all_true (List.replicate (res * res) true) res _ _ (by simp)
      (fun b hb => List.eq_of_mem_replicate hb)]
    simp

/-- C1 (amended): if the non-maximum-suppressed magnitude field is zero
everywhere, hysteresis marks EVERY pixel strong and returns the all-true
mask (the spec says all-false); the orchestrator still returns an empty
stroke list gracefully, because a uniform mask yields no marching-squares
segments. -/
theorem C1_allzero_nms_mask_and_trace (nms : List ℚ) (res : ℕ) (low high scale tol : ℚ)
    (hz : ∀ v ∈ nms, v = 0) (hlen : nms.length = res * res) :
    hysteresis nms res res low high = List.replicate (res * res) true ∧
    traceEdgesFrom (hysteresis nms res res low high) res scale tol = [] := by
  have h1 := hysteresis_zeros nms res res low high hz hlen
  exact ⟨h1, by rw [h1]; exact traceEdgesFrom_all_true res scale tol⟩

unseal Rat.add Rat.mul Rat.sub Rat.inv in
/-- C1 counterexample: on a 2x2 all-zero NMS field the hysteresis mask
is all-true, not all-false as claimed. -/
theorem C1_cex_hysteresis_all_true :
    hysteresis [0, 0, 0, 0] 2 2 (1 / 20) (3 / 20) = [true, true, true, true] ∧
    hysteresis [0, 0, 0, 0] 2 2 (1 / 20) (3 / 20) ≠ List.replicate 4 false := by
  constructor
  · decide
  · decide

theorem C1_witness :
    hysteresis [0, 0, 0, 0] 2 2 (1 / 20) (3 / 20) = List.replicate (2 * 2) true ∧
    traceEdgesFrom (hysteresis [0, 0, 0, 0] 2 2 (1 / 20) (3 / 20)) 2 8 4 = [] := by
  have h := C1_allzero_nms_mask_and_trace [0, 0, 0, 0] 2 (1 / 20) (3 / 20) 8 4
    (by intro v hv
        simp only [List.mem_cons, List.not_mem_nil, or_false] at hv
        rcases hv with rfl | rfl | rfl | rfl <;> rfl)
    (by simp)
  exact h

/-! ### C3: the fitter's error bound -/

instance : Inhabited FitAnn := ⟨⟨[], [], false, default⟩⟩

/-- An accepted (u, bezier) pair of the instrumented reparameterization
loop satisfies the acceptance test at its own parameters. -/
theorem reparamLoopA_inl (points : List RPt) (lt rt : RPt) (error : ℝ) :
    ∀ (k : ℕ) (u : List ℝ) (bez : BezierCtrl) (split : ℕ) (p : List ℝ × BezierCtrl),
    reparamLoopA points lt rt error k u bez split = Sum.inl p →
    p.2 = generateBezier points p.1 lt rt ∧ (computeMaxError points p.2 p.1).1 < error := by
  intro k
  induction k with
  | zero =>
    intro u bez split p h
    simp [reparamLoopA] at h
  | succ k ih =>
    intro u bez split p h
    simp only [reparamLoopA] at h
    split_ifs at h with hc
    · simp only [Sum.inl.injEq] at h
      subst h
      exact ⟨rfl, hc⟩
    · exact ih _ _ _ p h

/-- The instrumented loop erases to the plain loop. -/
theorem reparamLoopA_erase (points : List RPt) (lt rt : RPt) (error : ℝ) :
    ∀ (k : ℕ) (u : List ℝ) (bez : BezierCtrl) (split : ℕ),
    reparamLoop points lt rt error k u bez split =
      Sum.map Prod.snd id (reparamLoopA points lt rt error k u bez split) := by
  intro k
  induction k with
  | zero => intro u bez split; rfl
  | succ k ih =>
    intro u bez split
    simp only [reparamLoop, reparamLoopA]
    split_ifs with hc
    · rfl
    · exact ih _ _ _

theorem fitCubicAuxA_succ_base (fuel : ℕ) (points : List RPt) (lt rt : RPt) (error : ℝ)
    (h2 : points.length = 2) :
    fitCubicAuxA (fuel + 1) points lt rt error =
      [⟨points, [], true, baseSeg points lt rt⟩] := by
  simp only [fitCubicAuxA, if_pos h2]

theorem fitCubicAuxA_succ_acc (fuel : ℕ) (points : List RPt) (lt rt : RPt) (error : ℝ)
    (h2 : ¬ points.length = 2) (u : List ℝ) (bez : BezierCtrl) (me : ℝ × ℕ)
    (hu : u = chordLengthParameterize points) (hbez : bez = generateBezier points u lt rt)
    (hme : me = computeMaxError points bez u) (hacc : me.1 < error) :
    fitCubicAuxA (fuel + 1) points lt rt error = [⟨points, u, false, bez⟩] := by
  subst hu; subst hbez; subst hme
  simp only [fitCubicAuxA, if_neg h2, if_pos hacc]

theorem fitCubicAuxA_succ_inl (fuel : ℕ) (points : List RPt) (lt rt : RPt) (error : ℝ)
    (h2 : ¬ points.length = 2) (u : List ℝ) (bez : BezierCtrl) (me : ℝ × ℕ)
    (hu : u = chordLengthParameterize points) (hbez : bez = generateBezier points u lt rt)
    (hme : me = computeMaxError points bez u) (hacc : ¬ me.1 < error)
    (p : List ℝ × BezierCtrl)
    (hm : (if me.1 < error * error then reparamLoopA points lt rt error 5 u bez me.2
        else Sum.inr (u, bez, me.2)) = Sum.inl p) :
    fitCubicAuxA (fuel + 1) points lt rt error = [⟨points, p.1, false, p.2⟩] := by
  subst hu; subst hbez; subst hme
  simp only [fitCubicAuxA, if_neg h2, if_neg hacc, hm]

theorem fitCubicAuxA_succ_split (fuel : ℕ) (points : List RPt) (lt rt : RPt) (error : ℝ)
    (h2 : ¬ points.length = 2) (u : List ℝ) (bez : BezierCtrl) (me : ℝ × ℕ)
    (hu : u = chordLengthParameterize points) (hbez : bez = generateBezier points u lt rt)
    (hme : me = computeMaxError points bez u) (hacc : ¬ me.1 < error)
    (r : List ℝ × BezierCtrl × ℕ)
    (hm : (if me.1 < error * error then reparamLoopA points lt rt error 5 u bez me.2
        else Sum.inr (u, bez, me.2)) = Sum.inr r) :
    fitCubicAuxA (fuel + 1) points lt rt error =
      fitCubicAuxA fuel (points.take (clampSplit points.length r.2.2 + 1)) lt
        (normalize (sub points[clampSplit points.length r.2.2 - 1]!
          points[clampSplit points.length r.2.2 + 1]!)) error ++
      fitCubicAuxA fuel (points.drop (clampSplit points.length r.2.2))
        (mul (normalize (sub points[clampSplit points.length r.2.2 - 1]!
          points[clampSplit points.length r.2.2 + 1]!)) (-1)) rt error := by
  subst hu; subst hbez; subst hme
  simp only [fitCubicAuxA, if_neg h2, if_neg hacc, hm]

/-- Erasure: dropping the annotations recovers the plain fitter. -/
theorem fitCubicAuxA_erase : ∀ (fuel : ℕ) (points : List RPt) (lt rt : RPt) (error : ℝ),
    (fitCubicAuxA fuel points lt rt error).map FitAnn.seg =
      fitCubicAux fuel points lt rt error := by
  intro fuel
  induction fuel with
  | zero => intro points lt rt error; rfl
  | succ fuel ih =>
    intro points lt rt error
    by_cases h2 : points.length = 2
    · rw [fitCubicAuxA_succ_base fuel points lt rt error h2,
        fitCubicAux_succ_base fuel points lt rt error h2]
      rfl
    · set u0 := chordLengthParameterize points with hu0
      set bez0 := generateBezier points u0 lt rt with hbez0
      set me0 := computeMaxError points bez0 u0 with hme0
      by_cases hacc : me0.1 < error
      · rw [fitCubicAuxA_succ_acc fuel points lt rt error h2 u0 bez0 me0 hu0 hbez0 hme0 hacc,
          fitCubicAux_succ_acc fuel points lt rt error h2 u0 bez0 me0 hu0 hbez0 hme0 hacc]
        rfl
      · have hRL : (if me0.1 < error * error then reparamLoop points lt rt error 5 u0 bez0 me0.2
            else Sum.inr (u0, bez0, me0.2)) =
            Sum.map Prod.snd id (if me0.1 < error * error then
              reparamLoopA points lt rt error 5 u0 bez0 me0.2
            else Sum.inr (u0, bez0, me0.2)) := by
          split_ifs with hc
          · exact reparamLoopA_erase points lt rt error 5 u0 bez0 me0.2
          · rfl
        cases hm : (if me0.1 < error * error then reparamLoopA points lt rt error 5 u0 bez0 me0.2
            else Sum.inr (u0, bez0, me0.2)) with
        | inl p =>
          have hm2 : (if me0.1 < error * error then reparamLoop points lt rt error 5 u0 bez0 me0.2
              else Sum.inr (u0, bez0, me0.2)) = Sum.inl p.2 := by rw [hRL, hm]; rfl
          rw [fitCubicAuxA_succ_inl fuel points lt rt error h2 u0 bez0 me0 hu0 hbez0 hme0 hacc p hm,
            fitCubicAux_succ_inl fuel points lt rt error h2 u0 bez0 me0 hu0 hbez0 hme0 hacc p.2 hm2]
          rfl
        | inr r =>
          have hm2 : (if me0.1 < error * error then reparamLoop points lt rt error 5 u0 bez0 me0.2
              else Sum.inr (u0, bez0, me0.2)) = Sum.inr r := by rw [hRL, hm]; rfl
          rw [fitCubicAuxA_succ_split fuel points lt rt error h2 u0 bez0 me0 hu0 hbez0 hme0 hacc r hm,
            fitCubicAux_succ_split fuel points lt rt error h2 u0 bez0 me0 hu0 hbez0 hme0 hacc r hm2]
          rw [List.map_append, ih, ih]

/-- Every annotated output segment is either a base-case segment or was
accepted with its sampled error below the tolerance at its recorded
parameters. -/
theorem fitCubicAuxA_sound : ∀ (fuel : ℕ) (points : List RPt) (lt rt : RPt) (error : ℝ)
    (a : FitAnn), a ∈ fitCubicAuxA fuel points lt rt error →
    a.fromBase = true ∨ (computeMaxError a.src a.seg a.uAcc).1 < error := by
  intro fuel
  induction fuel with
  | zero =>
    intro points lt rt error a ha
    simp only [fitCubicAuxA, List.mem_singleton] at ha
    subst ha
    exact Or.inl rfl
  | succ fuel ih =>
    intro points lt rt error a ha
    by_cases h2 : points.length = 2
    · rw [fitCubicAuxA_succ_base fuel points lt rt error h2] at ha
      simp only [List.mem_singleton] at ha
      subst ha
      exact Or.inl rfl
    · set u0 := chordLengthParameterize points with hu0
      set bez0 := generateBezier points u0 lt rt with hbez0
      set me0 := computeMaxError points bez0 u0 with hme0
      by_cases hacc : me0.1 < error
      · rw [fitCubicAuxA_succ_acc fuel points lt rt error h2 u0 bez0 me0 hu0 hbez0 hme0 hacc] at ha
        simp only [List.mem_singleton] at ha
        subst ha
        right
        rw [hme0] at hacc
        exact hacc
      · cases hm : (if me0.1 < error * error then reparamLoopA points lt rt error 5 u0 bez0 me0.2
            else Sum.inr (u0, bez0, me0.2)) with
        | inl p =>
          rw [fitCubicAuxA_succ_inl fuel points lt rt error h2 u0 bez0 me0 hu0 hbez0 hme0 hacc p hm] at ha
          simp only [List.mem_singleton] at ha
          subst ha
          right
          by_cases hc2 : me0.1 < error * error
          · rw [if_pos hc2] at hm
            exact (reparamLoopA_inl points lt rt error 5 u0 bez0 me0.2 p hm).2
          · rw [if_neg hc2] at hm
            exact absurd hm (by simp)
        | inr r =>
          rw [fitCubicAuxA_succ_split fuel points lt rt error h2 u0 bez0 me0 hu0 hbez0 hme0 hacc r hm] at ha
          rcases List.mem_append.mp ha with h | h
          · exact ih _ _ _ _ a h
          · exact ih _ _ _ _ a h

/-- C3 (amended): the instrumented fitter erases to fitCurve, and every
produced segment either comes from a base case (2 points or exhausted
depth budget) or passed the acceptance test - its maximum sampled
deviation is below errorTolerance at the parameter vector at which it
was ACCEPTED (which after Newton reparameterization is in general not
the chord-length parameter vector of its source sub-polyline). -/
theorem C3_fitter_error_bound (points : List RPt) (error : ℝ) :
    (fitCurveA points error).map FitAnn.seg = fitCurve points error ∧
    ∀ a ∈ fitCurveA points error,
      a.fromBase = true ∨ (computeMaxError a.src a.seg a.uAcc).1 < error := by
  constructor
  · simp only [fitCurveA, fitCurve, fitCubic, Nat.sub_zero]
    by_cases h2 : points.length < 2
    · simp [if_pos h2]
    · simp only [if_neg h2]
      exact fitCubicAuxA_erase 51 points _ _ error
  · intro a ha
    simp only [fitCurveA] at ha
    by_cases h2 : points.length < 2
    · rw [if_pos h2] at ha
      simp at ha
    · rw [if_neg h2] at ha
      exact fitCubicAuxA_sound 51 points _ _ error a ha

theorem C3_witness :
    (fitCurveA [((0 : ℝ), 0), (1, 0)] 4).head!.fromBase = true ∨
    (computeMaxError (fitCurveA [((0 : ℝ), 0), (1, 0)] 4).head!.src
      (fitCurveA [((0 : ℝ), 0), (1, 0)] 4).head!.seg
      (fitCurveA [((0 : ℝ), 0), (1, 0)] 4).head!.uAcc).1 < 4 := by
  apply (C3_fitter_error_bound [((0 : ℝ), 0), (1, 0)] 4).2
  have hne : fitCurveA [((0 : ℝ), 0), (1, 0)] 4 ≠ [] := by
    simp only [fitCurveA]
    rw [if_neg (by norm_num)]
    rw [show (51 : ℕ) = 50 + 1 from rfl,
      fitCubicAuxA_succ_base 50 _ _ _ 4 (by norm_num)]
    simp
  cases hl : fitCurveA [((0 : ℝ), 0), (1, 0)] 4 with
  | nil => exact absurd hl hne
  | cons x xs =>
    rw [head!_cons]
    exact List.mem_cons_self _ _

/-! Exact evaluation of the fitter on the C3 counterexample input. -/

theorem len_eval (x y v : ℝ) (hv : x * x + y * y = v ^ 2) (hv0 : 0 ≤ v) :
    len (x, y) = v := by
  show Real.sqrt (x * x + y * y) = v
  rw [hv, Real.sqrt_sq hv0]

theorem c3_hu : chordLengthParameterize [((0 : ℝ), 0), (4, -(15 / 2)), (8, 0)] = [0, 1 / 2, 1] := by
  have h1 : len (sub ((4 : ℝ), -(15 / 2)) ((0 : ℝ), (0 : ℝ))) = 17 / 2 := by
    have he : sub ((4 : ℝ), -(15 / 2)) ((0 : ℝ), (0 : ℝ)) = (4, -(15 / 2)) := by simp [sub]
    rw [he]
    exact len_eval 4 (-(15 / 2)) (17 / 2) (by norm_num) (by norm_num)
  have h2 : len (sub ((8 : ℝ), (0 : ℝ)) ((4 : ℝ), -(15 / 2))) = 17 / 2 := by
    have he : sub ((8 : ℝ), (0 : ℝ)) ((4 : ℝ), -(15 / 2)) = (4, 15 / 2) := by
      simp [sub]; norm_num
    rw [he]
    exact len_eval 4 (15 / 2) (17 / 2) (by norm_num) (by norm_num)
  simp only [chordLengthParameterize, chordRaw, chordU, h1, h2]
  norm_num
  rw [show ([(0 : ℝ), 17 / 2, 17] : List ℝ).getLast! = 17 from rfl]
  rw [if_neg (by norm_num : ¬ (17 : ℝ) = 0)]
  norm_num

theorem c3_hac1 :
    (([(0 : ℝ), 1 / 2, 1] : List ℝ).zip
        [((0 : ℝ), 0), (4, -(15 / 2)), (8, 0)]).foldl
      (genAcc ((8 / 17 : ℝ), -(15 / 17)) ((-(8 / 17) : ℝ), -(15 / 17)) ((0 : ℝ), 0) ((8 : ℝ), 0))
      (0, 0, 0, 0, 0) =
      (9 / 64, 1449 / 18496, 9 / 64, 819 / 272, 531 / 272) := by
  simp only [List.zip_cons_cons, List.zip_nil_right, List.foldl_cons, List.foldl_nil,
    genAcc, mul, sub, add, dot, Prod.mk.injEq]
  norm_num

theorem c3_hbez1 :
    generateBezier [((0 : ℝ), 0), (4, -(15 / 2)), (8, 0)] [0, 1 / 2, 1]
      ((8 / 17 : ℝ), -(15 / 17)) ((-(8 / 17) : ℝ), -(15 / 17)) =
      ⟨((0 : ℝ), 0), (28 / 3, -(35 / 2)), (20 / 3, -(5 / 2)), ((8 : ℝ), 0)⟩ := by
  simp only [generateBezier]
  rw [show ([((0 : ℝ), 0), (4, -(15 / 2)), (8, 0)] : List RPt).head! = ((0 : ℝ), 0) from rfl,
    show ([((0 : ℝ), 0), (4, -(15 / 2)), (8, 0)] : List RPt).getLast! = ((8 : ℝ), 0) from rfl]
  rw [c3_hac1]
  dsimp only
  rw [show |(9 / 64 : ℝ) * (9 / 64) - 1449 / 18496 * (1449 / 18496)| = 18225 / 1336336 by
    rw [abs_of_pos (by norm_num)]; norm_num]
  rw [if_pos (show (1 / 1000000 : ℝ) < 18225 / 1336336 by norm_num),
    if_pos (show (1 / 1000000 : ℝ) < 18225 / 1336336 by norm_num)]
  rw [if_neg (by norm_num), if_neg (by norm_num)]
  simp only [add, mul, BezierCtrl.mk.injEq, Prod.mk.injEq]
  norm_num

theorem c3_hq10 :
    bezierQ ⟨((0 : ℝ), 0), (28 / 3, -(35 / 2)), (20 / 3, -(5 / 2)), ((8 : ℝ), 0)⟩ 0 =
      ((0 : ℝ), 0) := by
  simp only [bezierQ]
  norm_num

theorem c3_hq11 :
    bezierQ ⟨((0 : ℝ), 0), (28 / 3, -(35 / 2)), (20 / 3, -(5 / 2)), ((8 : ℝ), 0)⟩ (1 / 2) =
      ((7 : ℝ), -(15 / 2)) := by
  simp only [bezierQ]
  norm_num [Prod.mk.injEq]

theorem c3_hq12 :
    bezierQ ⟨((0 : ℝ), 0), (28 / 3, -(35 / 2)), (20 / 3, -(5 / 2)), ((8 : ℝ), 0)⟩ 1 =
      ((8 : ℝ), 0) := by
  simp only [bezierQ]
  norm_num

theorem c3_hme1 :
    computeMaxError [((0 : ℝ), 0), (4, -(15 / 2)), (8, 0)]
      ⟨((0 : ℝ), 0), (28 / 3, -(35 / 2)), (20 / 3, -(5 / 2)), ((8 : ℝ), 0)⟩
      [0, 1 / 2, 1] = (3, 1) := by
  have hd0 : len (sub (bezierQ ⟨((0 : ℝ), 0), (28 / 3, -(35 / 2)), (20 / 3, -(5 / 2)),
      ((8 : ℝ), 0)⟩ 0) ((0 : ℝ), 0)) = 0 := by
    rw [c3_hq10, show sub ((0 : ℝ), 0) ((0 : ℝ), 0) = ((0 : ℝ), (0 : ℝ)) by simp [sub]]
    exact len_eval 0 0 0 (by norm_num) (by norm_num)
  have hd1 : len (sub (bezierQ ⟨((0 : ℝ), 0), (28 / 3, -(35 / 2)), (20 / 3, -(5 / 2)),
      ((8 : ℝ), 0)⟩ (1 / 2)) ((4 : ℝ), -(15 / 2))) = 3 := by
    rw [c3_hq11, show sub ((7 : ℝ), -(15 / 2)) ((4 : ℝ), -(15 / 2)) = ((3 : ℝ), (0 : ℝ)) by
      simp [sub]; norm_num]
    exact len_eval 3 0 3 (by norm_num) (by norm_num)
  have hd2 : len (sub (bezierQ ⟨((0 : ℝ), 0), (28 / 3, -(35 / 2)), (20 / 3, -(5 / 2)),
      ((8 : ℝ), 0)⟩ 1) ((8 : ℝ), 0)) = 0 := by
    rw [c3_hq12, show sub ((8 : ℝ), 0) ((8 : ℝ), 0) = ((0 : ℝ), (0 : ℝ)) by simp [sub]]
    exact len_eval 0 0 0 (by norm_num) (by norm_num)
  simp only [computeMaxError, List.zip_cons_cons, List.zip_nil_right, cmeGo]
  rw [hd0, hd1, hd2]
  norm_num

theorem c3_hnr0 :
    newtonRaphsonRootFind ⟨((0 : ℝ), 0), (28 / 3, -(35 / 2)), (20 / 3, -(5 / 2)), ((8 : ℝ), 0)⟩
      ((0 : ℝ), 0) 0 = 0 := by
  simp only [newtonRaphsonRootFind, bezierQ, bezierQPrime, bezierQPrime2, sub, dot]
  split_ifs with h
  · exact absurd h (by norm_num)
  · norm_num

theorem c3_hnr1 :
    newtonRaphsonRootFind ⟨((0 : ℝ), 0), (28 / 3, -(35 / 2)), (20 / 3, -(5 / 2)), ((8 : ℝ), 0)⟩
      ((4 : ℝ), -(15 / 2)) (1 / 2) = 745 / 2258 := by
  simp only [newtonRaphsonRootFind, bezierQ, bezierQPrime, bezierQPrime2, sub, dot]
  split_ifs with h
  · exact absurd h (by norm_num)
  · norm_num

theorem c3_hnr2 :
    newtonRaphsonRootFind ⟨((0 : ℝ), 0), (28 / 3, -(35 / 2)), (20 / 3, -(5 / 2)), ((8 : ℝ), 0)⟩
      ((8 : ℝ), 0) 1 = 1 := by
  simp only [newtonRaphsonRootFind, bezierQ, bezierQPrime, bezierQPrime2, sub, dot]
  split_ifs with h
  · exact absurd h (by norm_num)
  · norm_num

theorem c3_hreparam :
    reparameterize [((0 : ℝ), 0), (4, -(15 / 2)), (8, 0)] [0, 1 / 2, 1]
      ⟨((0 : ℝ), 0), (28 / 3, -(35 / 2)), (20 / 3, -(5 / 2)), ((8 : ℝ), 0)⟩ =
      [0, 745 / 2258, 1] := by
  simp only [reparameterize, List.zip_cons_cons, List.zip_nil_right, List.map_cons,
    List.map_nil]
  rw [c3_hnr0, c3_hnr1, c3_hnr2]

theorem c3_hac2 :
    (([(0 : ℝ), 745 / 2258, 1] : List ℝ).zip
        [((0 : ℝ), 0), (4, -(15 / 2)), (8, 0)]).foldl
      (genAcc ((8 / 17 : ℝ), -(15 / 17)) ((-(8 / 17) : ℝ), -(15 / 17)) ((0 : ℝ), 0) ((8 : ℝ), 0))
      (0, 0, 0, 0, 0) =
      (26176451145562071225 / 132538980467107630144,
        7180524114318221625 / 132538980467107630144,
        6346663263859325625 / 132538980467107630144,
        123174819981972555795 / 33134745116776907536,
        35314982778646041075 / 33134745116776907536) := by
  simp only [List.zip_cons_cons, List.zip_nil_right, List.foldl_cons, List.foldl_nil,
    genAcc, mul, sub, add, dot, Prod.mk.injEq]
  norm_num

theorem c3_hbez2 :
    generateBezier [((0 : ℝ), 0), (4, -(15 / 2)), (8, 0)] [0, 745 / 2258, 1]
      ((8 / 17 : ℝ), -(15 / 17)) ((-(8 / 17) : ℝ), -(15 / 17)) =
      ⟨((0 : ℝ), 0), (29343196 / 3381555, -(7335799 / 450874)),
        (33332 / 4539, -(3725 / 3026)), ((8 : ℝ), 0)⟩ := by
  simp only [generateBezier]
  rw [show ([((0 : ℝ), 0), (4, -(15 / 2)), (8, 0)] : List RPt).head! = ((0 : ℝ), 0) from rfl,
    show ([((0 : ℝ), 0), (4, -(15 / 2)), (8, 0)] : List RPt).getLast! = ((8 : ℝ), 0) from rfl]
  rw [c3_hac2]
  dsimp only
  rw [show |(26176451145562071225 / 132538980467107630144 : ℝ) *
      (6346663263859325625 / 132538980467107630144) -
      7180524114318221625 / 132538980467107630144 *
      (7180524114318221625 / 132538980467107630144)| =
      447551540263444051058282048844140625 / 68619458372110694989045173354468349456 by
    rw [abs_of_pos (by norm_num)]; norm_num]
  rw [if_pos (show (1 / 1000000 : ℝ) <
      447551540263444051058282048844140625 / 68619458372110694989045173354468349456 by
      norm_num),
    if_pos (show (1 / 1000000 : ℝ) <
      447551540263444051058282048844140625 / 68619458372110694989045173354468349456 by
      norm_num)]
  rw [if_neg (by norm_num), if_neg (by norm_num)]
  simp only [add, mul, BezierCtrl.mk.injEq, Prod.mk.injEq]
  norm_num

theorem c3_hq20 :
    bezierQ ⟨((0 : ℝ), 0), (29343196 / 3381555, -(7335799 / 450874)),
      (33332 / 4539, -(3725 / 3026)), ((8 : ℝ), 0)⟩ 0 = ((0 : ℝ), 0) := by
  simp only [bezierQ]
  norm_num

theorem c3_hq21 :
    bezierQ ⟨((0 : ℝ), 0), (29343196 / 3381555, -(7335799 / 450874)),
      (33332 / 4539, -(3725 / 3026)), ((8 : ℝ), 0)⟩ (745 / 2258) =
      ((8275537231 / 1439069689 : ℝ), -(15 / 2)) := by
  simp only [bezierQ]
  norm_num [Prod.mk.injEq]

theorem c3_hq22 :
    bezierQ ⟨((0 : ℝ), 0), (29343196 / 3381555, -(7335799 / 450874)),
      (33332 / 4539, -(3725 / 3026)), ((8 : ℝ), 0)⟩ 1 = ((8 : ℝ), 0) := by
  simp only [bezierQ]
  norm_num

theorem c3_hq2c :
    bezierQ ⟨((0 : ℝ), 0), (29343196 / 3381555, -(7335799 / 450874)),
      (33332 / 4539, -(3725 / 3026)), ((8 : ℝ), 0)⟩ (1 / 2) =
      ((7899127 / 1127185 : ℝ), -(2959059 / 450874)) := by
  simp only [bezierQ]
  norm_num [Prod.mk.injEq]

theorem c3_hme2 :
    computeMaxError [((0 : ℝ), 0), (4, -(15 / 2)), (8, 0)]
      ⟨((0 : ℝ), 0), (29343196 / 3381555, -(7335799 / 450874)),
        (33332 / 4539, -(3725 / 3026)), ((8 : ℝ), 0)⟩
      [0, 745 / 2258, 1] = (2519258475 / 1439069689, 1) := by
  have hd0 : len (sub (bezierQ ⟨((0 : ℝ), 0), (29343196 / 3381555, -(7335799 / 450874)),
      (33332 / 4539, -(3725 / 3026)), ((8 : ℝ), 0)⟩ 0) ((0 : ℝ), 0)) = 0 := by
    rw [c3_hq20, show sub ((0 : ℝ), 0) ((0 : ℝ), 0) = ((0 : ℝ), (0 : ℝ)) by simp [sub]]
    exact len_eval 0 0 0 (by norm_num) (by norm_num)
  have hd1 : len (sub (bezierQ ⟨((0 : ℝ), 0), (29343196 / 3381555, -(7335799 / 450874)),
      (33332 / 4539, -(3725 / 3026)), ((8 : ℝ), 0)⟩ (745 / 2258)) ((4 : ℝ), -(15 / 2))) =
      2519258475 / 1439069689 := by
    rw [c3_hq21, show sub ((8275537231 / 1439069689 : ℝ), -(15 / 2)) ((4 : ℝ), -(15 / 2)) =
      ((2519258475 / 1439069689 : ℝ), (0 : ℝ)) by simp [sub]; norm_num]
    exact len_eval (2519258475 / 1439069689) 0 (2519258475 / 1439069689)
      (by norm_num) (by norm_num)
  have hd2 : len (sub (bezierQ ⟨((0 : ℝ), 0), (29343196 / 3381555, -(7335799 / 450874)),
      (33332 / 4539, -(3725 / 3026)), ((8 : ℝ), 0)⟩ 1) ((8 : ℝ), 0)) = 0 := by
    rw [c3_hq22, show sub ((8 : ℝ), 0) ((8 : ℝ), 0) = ((0 : ℝ), (0 : ℝ)) by simp [sub]]
    exact len_eval 0 0 0 (by norm_num) (by norm_num)
  simp only [computeMaxError, List.zip_cons_cons, List.zip_nil_right, cmeGo]
  rw [hd0, hd1, hd2]
  norm_num

theorem c3_hme3 :
    computeMaxError [((0 : ℝ), 0), (4, -(15 / 2)), (8, 0)]
      ⟨((0 : ℝ), 0), (29343196 / 3381555, -(7335799 / 450874)),
        (33332 / 4539, -(3725 / 3026)), ((8 : ℝ), 0)⟩
      [0, 1 / 2, 1] = (Real.sqrt (12610366947369 / 1270546024225), 1) := by
  have hd0 : len (sub (bezierQ ⟨((0 : ℝ), 0), (29343196 / 3381555, -(7335799 / 450874)),
      (33332 / 4539, -(3725 / 3026)), ((8 : ℝ), 0)⟩ 0) ((0 : ℝ), 0)) = 0 := by
    rw [c3_hq20, show sub ((0 : ℝ), 0) ((0 : ℝ), 0) = ((0 : ℝ), (0 : ℝ)) by simp [sub]]
    exact len_eval 0 0 0 (by norm_num) (by norm_num)
  have hd1 : len (sub (bezierQ ⟨((0 : ℝ), 0), (29343196 / 3381555, -(7335799 / 450874)),
      (33332 / 4539, -(3725 / 3026)), ((8 : ℝ), 0)⟩ (1 / 2)) ((4 : ℝ), -(15 / 2))) =
      Real.sqrt (12610366947369 / 1270546024225) := by
    rw [c3_hq2c, show sub ((7899127 / 1127185 : ℝ), -(2959059 / 450874)) ((4 : ℝ), -(15 / 2)) =
      ((3390387 / 1127185 : ℝ), (211248 / 225437 : ℝ)) by simp [sub]; norm_num]
    show Real.sqrt (3390387 / 1127185 * (3390387 / 1127185) +
      211248 / 225437 * (211248 / 225437)) = Real.sqrt (12610366947369 / 1270546024225)
    congr 1
    norm_num
  have hd2 : len (sub (bezierQ ⟨((0 : ℝ), 0), (29343196 / 3381555, -(7335799 / 450874)),
      (33332 / 4539, -(3725 / 3026)), ((8 : ℝ), 0)⟩ 1) ((8 : ℝ), 0)) = 0 := by
    rw [c3_hq22, show sub ((8 : ℝ), 0) ((8 : ℝ), 0) = ((0 : ℝ), (0 : ℝ)) by simp [sub]]
    exact len_eval 0 0 0 (by norm_num) (by norm_num)
  simp only [computeMaxError, List.zip_cons_cons, List.zip_nil_right, cmeGo]
  rw [hd0, hd1, hd2]
  rw [if_neg (by norm_num : ¬ ((0 : ℝ), 1).1 < 0),
    if_pos (show ((0 : ℝ), 1).1 < Real.sqrt (12610366947369 / 1270546024225) by
      show (0 : ℝ) < Real.sqrt (12610366947369 / 1270546024225)
      rw [Real.sqrt_pos]
      norm_num),
    if_neg (show ¬ (Real.sqrt (12610366947369 / 1270546024225), 1).1 < 0 by
      show ¬ Real.sqrt (12610366947369 / 1270546024225) < 0
      exact not_lt.mpr (Real.sqrt_nonneg _))]

theorem reparamLoopA_succ (points : List RPt) (lt rt : RPt) (error : ℝ) (k : ℕ)
    (u : List ℝ) (bez : BezierCtrl) (split : ℕ) :
    reparamLoopA points lt rt error (k + 1) u bez split =
      (if (computeMaxError points (generateBezier points (reparameterize points u bez) lt rt)
          (reparameterize points u bez)).1 < error then
        Sum.inl (reparameterize points u bez,
          generateBezier points (reparameterize points u bez) lt rt)
      else reparamLoopA points lt rt error k (reparameterize points u bez)
        (generateBezier points (reparameterize points u bez) lt rt)
        (computeMaxError points (generateBezier points (reparameterize points u bez) lt rt)
          (reparameterize points u bez)).2) := rfl

theorem c3_hLT : normalize (sub ((4 : ℝ), -(15 / 2)) ((0 : ℝ), 0)) =
    ((8 / 17 : ℝ), -(15 / 17)) := by
  rw [show sub ((4 : ℝ), -(15 / 2)) ((0 : ℝ), 0) = ((4 : ℝ), -(15 / 2)) by simp [sub]]
  have hl : len ((4 : ℝ), -(15 / 2)) = 17 / 2 :=
    len_eval 4 (-(15 / 2)) (17 / 2) (by norm_num) (by norm_num)
  simp only [normalize, hl]
  rw [if_neg (by norm_num : ¬ (17 / 2 : ℝ) = 0)]
  norm_num [Prod.mk.injEq]

theorem c3_hRT : normalize (sub ((4 : ℝ), -(15 / 2)) ((8 : ℝ), 0)) =
    ((-(8 / 17) : ℝ), -(15 / 17)) := by
  rw [show sub ((4 : ℝ), -(15 / 2)) ((8 : ℝ), 0) = ((-4 : ℝ), -(15 / 2)) by
    simp [sub]; norm_num]
  have hl : len ((-4 : ℝ), -(15 / 2)) = 17 / 2 :=
    len_eval (-4) (-(15 / 2)) (17 / 2) (by norm_num) (by norm_num)
  simp only [normalize, hl]
  rw [if_neg (by norm_num : ¬ (17 / 2 : ℝ) = 0)]
  norm_num [Prod.mk.injEq]

theorem c3_hloop :
    reparamLoopA [((0 : ℝ), 0), (4, -(15 / 2)), (8, 0)] ((8 / 17 : ℝ), -(15 / 17))
      ((-(8 / 17) : ℝ), -(15 / 17)) 2 5 [0, 1 / 2, 1]
      ⟨((0 : ℝ), 0), (28 / 3, -(35 / 2)), (20 / 3, -(5 / 2)), ((8 : ℝ), 0)⟩ 1 =
      Sum.inl ([0, 745 / 2258, 1],
        ⟨((0 : ℝ), 0), (29343196 / 3381555, -(7335799 / 450874)),
          (33332 / 4539, -(3725 / 3026)), ((8 : ℝ), 0)⟩) := by
  rw [show (5 : ℕ) = 4 + 1 from rfl, reparamLoopA_succ]
  rw [c3_hreparam, c3_hbez2, c3_hme2]
  rw [if_pos (show ((2519258475 / 1439069689 : ℝ), (1 : ℕ)).1 < 2 by norm_num)]

/-- C3 counterexample: on the 3-point polyline (0,0), (4,-15/2), (8,0)
with errorTolerance 2, the fitter accepts a single segment after one
Newton reparameterization (fromBase = false, so it is not a depth-cap
segment), yet that segment's maximum sampled deviation at the source
sub-polyline's chord-length parameters is sqrt(12610366947369/1270546024225)
which is at least 2 - the claim's bound fails because acceptance is
tested at the Newton-updated parameters, not the chord-length ones. -/
theorem C3_cex_accepted_segment_misses_tolerance :
    fitCurveA [((0 : ℝ), 0), (4, -(15 / 2)), (8, 0)] 2 =
      [⟨[((0 : ℝ), 0), (4, -(15 / 2)), (8, 0)], [0, 745 / 2258, 1], false,
        ⟨((0 : ℝ), 0), (29343196 / 3381555, -(7335799 / 450874)),
          (33332 / 4539, -(3725 / 3026)), ((8 : ℝ), 0)⟩⟩] ∧
    fitCurve [((0 : ℝ), 0), (4, -(15 / 2)), (8, 0)] 2 =
      [⟨((0 : ℝ), 0), (29343196 / 3381555, -(7335799 / 450874)),
        (33332 / 4539, -(3725 / 3026)), ((8 : ℝ), 0)⟩] ∧
    2 ≤ (computeMaxError [((0 : ℝ), 0), (4, -(15 / 2)), (8, 0)]
      ⟨((0 : ℝ), 0), (29343196 / 3381555, -(7335799 / 450874)),
        (33332 / 4539, -(3725 / 3026)), ((8 : ℝ), 0)⟩
      (chordLengthParameterize [((0 : ℝ), 0), (4, -(15 / 2)), (8, 0)])).1 := by
  have h2len : ¬ ([((0 : ℝ), 0), (4, -(15 / 2)), (8, 0)] : List RPt).length = 2 := by simp
  have hmA : (if (((3 : ℝ), (1 : ℕ)) : ℝ × ℕ).1 < 2 * 2 then
      reparamLoopA [((0 : ℝ), 0), (4, -(15 / 2)), (8, 0)] ((8 / 17 : ℝ), -(15 / 17))
        ((-(8 / 17) : ℝ), -(15 / 17)) 2 5 [0, 1 / 2, 1]
        ⟨((0 : ℝ), 0), (28 / 3, -(35 / 2)), (20 / 3, -(5 / 2)), ((8 : ℝ), 0)⟩
        (((3 : ℝ), (1 : ℕ)) : ℝ × ℕ).2
      else Sum.inr ([0, 1 / 2, 1],
        ⟨((0 : ℝ), 0), (28 / 3, -(35 / 2)), (20 / 3, -(5 / 2)), ((8 : ℝ), 0)⟩,
        (((3 : ℝ), (1 : ℕ)) : ℝ × ℕ).2)) =
      Sum.inl ([0, 745 / 2258, 1],
        ⟨((0 : ℝ), 0), (29343196 / 3381555, -(7335799 / 450874)),
          (33332 / 4539, -(3725 / 3026)), ((8 : ℝ), 0)⟩) := by
    rw [if_pos (by norm_num)]
    exact c3_hloop
  have hAux : fitCubicAuxA 51 [((0 : ℝ), 0), (4, -(15 / 2)), (8, 0)]
      ((8 / 17 : ℝ), -(15 / 17)) ((-(8 / 17) : ℝ), -(15 / 17)) 2 =
      [⟨[((0 : ℝ), 0), (4, -(15 / 2)), (8, 0)], [0, 745 / 2258, 1], false,
        ⟨((0 : ℝ), 0), (29343196 / 3381555, -(7335799 / 450874)),
          (33332 / 4539, -(3725 / 3026)), ((8 : ℝ), 0)⟩⟩] := by
    rw [show (51 : ℕ) = 50 + 1 from rfl]
    rw [fitCubicAuxA_succ_inl 50 [((0 : ℝ), 0), (4, -(15 / 2)), (8, 0)]
      ((8 / 17 : ℝ), -(15 / 17)) ((-(8 / 17) : ℝ), -(15 / 17)) 2 h2len
      [0, 1 / 2, 1] ⟨((0 : ℝ), 0), (28 / 3, -(35 / 2)), (20 / 3, -(5 / 2)), ((8 : ℝ), 0)⟩
      (((3 : ℝ), (1 : ℕ)) : ℝ × ℕ) c3_hu.symm c3_hbez1.symm c3_hme1.symm (by norm_num)
      ([0, 745 / 2258, 1],
        ⟨((0 : ℝ), 0), (29343196 / 3381555, -(7335799 / 450874)),
          (33332 / 4539, -(3725 / 3026)), ((8 : ℝ), 0)⟩) hmA]
  refine ⟨?_, ?_, ?_⟩
  · simp only [fitCurveA]
    rw [if_neg (by norm_num)]
    rw [show (([((0 : ℝ), 0), (4, -(15 / 2)), (8, 0)] : List RPt))[1]! =
        ((4 : ℝ), -(15 / 2)) from rfl,
      show (([((0 : ℝ), 0), (4, -(15 / 2)), (8, 0)] : List RPt))[0]! =
        ((0 : ℝ), (0 : ℝ)) from rfl,
      show (([((0 : ℝ), 0), (4, -(15 / 2)), (8, 0)] :
          List RPt))[([((0 : ℝ), 0), (4, -(15 / 2)), (8, 0)] : List RPt).length - 2]! =
        ((4 : ℝ), -(15 / 2)) from rfl,
      show (([((0 : ℝ), 0), (4, -(15 / 2)), (8, 0)] :
          List RPt))[([((0 : ℝ), 0), (4, -(15 / 2)), (8, 0)] : List RPt).length - 1]! =
        ((8 : ℝ), (0 : ℝ)) from rfl]
    rw [c3_hLT, c3_hRT]
    exact hAux
  · simp only [fitCurve, fitCubic, Nat.sub_zero]
    rw [if_neg (by norm_num)]
    rw [show (([((0 : ℝ), 0), (4, -(15 / 2)), (8, 0)] : List RPt))[1]! =
        ((4 : ℝ), -(15 / 2)) from rfl,
      show (([((0 : ℝ), 0), (4, -(15 / 2)), (8, 0)] : List RPt))[0]! =
        ((0 : ℝ), (0 : ℝ)) from rfl,
      show (([((0 : ℝ), 0), (4, -(15 / 2)), (8, 0)] :
          List RPt))[([((0 : ℝ), 0), (4, -(15 / 2)), (8, 0)] : List RPt).length - 2]! =
        ((4 : ℝ), -(15 / 2)) from rfl,
      show (([((0 : ℝ), 0), (4, -(15 / 2)), (8, 0)] :
          List RPt))[([((0 : ℝ), 0), (4, -(15 / 2)), (8, 0)] : List RPt).length - 1]! =
        ((8 : ℝ), (0 : ℝ)) from rfl]
    rw [c3_hLT, c3_hRT]
    rw [← fitCubicAuxA_erase 51 [((0 : ℝ), 0), (4, -(15 / 2)), (8, 0)]
      ((8 / 17 : ℝ), -(15 / 17)) ((-(8 / 17) : ℝ), -(15 / 17)) 2, hAux]
    rfl
  · rw [c3_hu, c3_hme3]
    show (2 : ℝ) ≤ Real.sqrt (12610366947369 / 1270546024225)
    rw [Real.le_sqrt' (by norm_num : (0 : ℝ) < 2)]
    norm_num

end Shaper
